import Mathlib

/-!
Verification development for the adaptive batching / retry translation core
(`manga_translator/translators/chatgpt.py`, class `OpenAITranslator`).

Strings are modelled as `List Char`.  Python string operations used by the
source (`str.strip`, `str.split`, `re.split` / `re.sub` / `re.match` /
`re.search` on the marker pattern `<\|\d+\|>`) are given executable
character-level models below.  The remote chat-completion call is an external
collaborator; it is modelled as an oracle `ℕ → Except Unit (List Char)`
mapping the index of each issued request to either a raw response text
(`Except.ok`) or an exception (`Except.error`), which covers every behaviour
of the request executor.  `asyncio.gather` of the two split halves is
modelled as deterministic left-then-right sequencing; all properties proved
below are quantified over every oracle, hence over every response sequence an
interleaving could produce.
-/

/-- Convert a string literal to the `List Char` representation used throughout. -/
def s2l (s : String) : List Char := s.data

/-- Python `str.isspace` / `str.strip` whitespace for the ASCII range
(space, tab, newline, carriage return, vertical tab, form feed).  Python also
strips some exotic Unicode whitespace; no input in this development uses it. -/
def isPySpace (c : Char) : Bool :=
  c = ' ' ∨ c = '\t' ∨ c = '\n' ∨ c = '\r' ∨ c.toNat = 11 ∨ c.toNat = 12

/-- Model of Python `str.strip()`: drop leading and trailing whitespace. -/
def pyStrip (l : List Char) : List Char :=
  ((l.dropWhile isPySpace).reverse.dropWhile isPySpace).reverse

/-- Prepend a character to the first block of a block list (used by the
character-level splitters; the splitters never produce an empty block list,
the `[]` case is for totality). -/
def consHead (c : Char) : List (List Char) → List (List Char)
  | [] => [[c]]
  | p :: ps => (c :: p) :: ps

/-- Model of Python `str.split(sep)` for a single-character separator:
split at every occurrence, keeping empty pieces (so the result always has
one more piece than there are separators). -/
def pySplitChar (sep : Char) : List Char → List (List Char)
  | [] => [[]]
  | c :: cs => if c = sep then [] :: pySplitChar sep cs else consHead c (pySplitChar sep cs)

/-- ASCII digit test, the relevant case of the `\d` class of the marker
regular expression `<\|\d+\|>`. -/
def isDig (c : Char) : Bool := 48 ≤ c.toNat ∧ c.toNat ≤ 57

/-- Numeric value of one ASCII digit character. -/
def charVal (c : Char) : ℕ := c.toNat - 48

/-- Model of Python `int(...)` on a digit string (as produced by the capture
group of `<\|(\d+)\|>`). -/
def digitsVal (ds : List Char) : ℕ := ds.foldl (fun a c => 10 * a + charVal c) 0

/-- The decimal digit character for a value in `0..9`. -/
def digitChar10 (n : ℕ) : Char :=
  match n with
  | 0 => '0' | 1 => '1' | 2 => '2' | 3 => '3' | 4 => '4'
  | 5 => '5' | 6 => '6' | 7 => '7' | 8 => '8' | _ => '9'

/-- Fuelled decimal rendering of a natural number (most significant digit
first); fuel `n + 1` always suffices since the value shrinks by `/ 10`. -/
def natCharsGo : ℕ → ℕ → List Char
  | 0, _ => []
  | fuel + 1, n => if n < 10 then [digitChar10 n] else natCharsGo fuel (n / 10) ++ [digitChar10 (n % 10)]

/-- Decimal rendering of a natural number, e.g. `12` becomes `['1','2']`. -/
def natChars (n : ℕ) : List Char := natCharsGo (n + 1) n

/-- Model of matching the anchored marker regular expression `<\|(\d+)\|>`
at the head of a character list (`re.match(r'^<\|(\d+)\|>(.*)', line)`):
on success returns the captured index value and the text after the marker.
The regex engine's greedy `\d+` followed by the literal `\|>` succeeds
exactly when the maximal digit run is followed by `|>`, which is what the
`takeWhile`/`dropWhile` pair computes. -/
def matchMarkerFrom (l : List Char) : Option (ℕ × List Char) :=
  if l.take 2 = ['<', '|'] then
    let rest := l.drop 2
    let ds := rest.takeWhile isDig
    let tail := rest.dropWhile isDig
    if ds ≠ [] ∧ tail.take 2 = ['|', '>'] then some (digitsVal ds, tail.drop 2)
    else none
  else none

/-- Fuelled body of the `re.split(r'<\|\d+\|>', text)` model: scan left to
right; each (leftmost, non-overlapping) marker occurrence ends the current
piece and starts a new one.  Fuel `length` suffices because a marker match
consumes at least five characters. -/
def splitGo : ℕ → List Char → List (List Char)
  | _, [] => [[]]
  | 0, l => [l]
  | fuel + 1, c :: cs =>
    match matchMarkerFrom (c :: cs) with
    | some pr => [] :: splitGo fuel pr.2
    | none => consHead c (splitGo fuel cs)

/-- Model of Python `re.split(r'<\|\d+\|>', text)` (the pattern has no
capture groups, so only the pieces between matches are returned). -/
def splitMarkers (l : List Char) : List (List Char) := splitGo l.length l

/-- Model of Python `re.search(r'<\|(\d+)\|>', part)` restricted to the
captured index of the first match, scanning positions left to right. -/
def searchMarker : List Char → Option ℕ
  | [] => none
  | c :: cs =>
    match matchMarkerFrom (c :: cs) with
    | some pr => some pr.1
    | none => searchMarker cs

/-- Model of Python `re.sub(r'<\|\d+\|>', '', text)`: erase every marker,
i.e. concatenate the pieces produced by the splitter. -/
def removeMarkers (l : List Char) : List Char := (splitMarkers l).flatten

/-- The character list of the marker `<|i|>`. -/
def markerChars (i : ℕ) : List Char := '<' :: '|' :: (natChars i ++ '|' :: '>' :: [])

/-- Substring containment, the model of Python's `needle in haystack`
(`leadsWith` is the prefix test). -/
def leadsWith : List Char → List Char → Bool
  | [], _ => true
  | _ :: _, [] => false
  | a :: as, b :: bs => a = b && leadsWith as bs

/-- Model of Python `needle in haystack` on strings. -/
def occursIn (needle : List Char) : List Char → Bool
  | [] => needle.isEmpty
  | c :: cs => leadsWith needle (c :: cs) || occursIn needle cs

/-! ## Prompt assembler (`OpenAITranslator._assemble_prompts`, chatgpt.py 111-147)

The assembler walks the queries once, closing the current batch whenever
adding the next query (plus 10 characters of marker headroom) would push the
running character total over the budget and the batch is non-empty; a final
non-empty batch is flushed at the end.  One prompt is then yielded per batch. -/

/-- The class constant `_MAX_TOKENS` (chatgpt.py line 33). -/
def MAX_TOKENS : ℕ := 8192

/-- `MAX_CHAR_PER_PROMPT = self._MAX_TOKENS * 4` (chatgpt.py line 122). -/
def MAX_CHAR_PER_PROMPT : ℕ := MAX_TOKENS * 4

/-- The chunking loop of `_assemble_prompts` (chatgpt.py lines 123-137):
`batch` and `curLen` are the running accumulator and character count. -/
def chunkGo (maxC : ℕ) : List (List Char) → List (List Char) → ℕ → List (List (List Char))
  | [], batch, _ => if batch = [] then [] else [batch]
  | q :: qs, batch, curLen =>
    if curLen + q.length + 10 > maxC ∧ batch ≠ [] then
      batch :: chunkGo maxC qs [q] (q.length + 10)
    else
      chunkGo maxC qs (batch ++ [q]) (curLen + q.length + 10)

/-- The list of query groups produced by `_assemble_prompts` for the given
character budget (the generator yields one `(prompt, len(batch))` pair per
group, in this order). -/
def assembleChunks (maxC : ℕ) (queries : List (List Char)) : List (List (List Char)) :=
  chunkGo maxC queries [] 0

/-! ## Response validation inside `_translate_batch` (chatgpt.py lines 317-503)

One attempt's response is parsed and checked by straight-line code inside the
retry loop; `validateResponse` is that code as a pure function: it returns
`some translations` when the attempt is accepted and `none` when the attempt
is rejected (every rejection in the source does `continue`, i.e. retry). -/

/-- The class constants `_RETRY_ATTEMPTS` and `_MAX_SPLIT_ATTEMPTS`
(chatgpt.py lines 29 and 32). -/
def RETRY_ATTEMPTS : ℕ := 2

/-- The class constant `_MAX_SPLIT_ATTEMPTS` (chatgpt.py line 32). -/
def MAX_SPLIT_ATTEMPTS : ℕ := 3

/-- Drop a leading empty element, the model of
`if xs and not xs[0].strip(): xs = xs[1:]` applied to a list whose elements
are already stripped (chatgpt.py lines 326-327, 350-351 and 228-229). -/
def dropLeadEmpty : List (List Char) → List (List Char)
  | [] => []
  | p :: ps => if p = [] then ps else p :: ps

/-- The scan of `new_translations[1:]` for a marker with index above 1
(chatgpt.py lines 334-341): for each piece, `re.search` finds the first
marker, and the flag is set when its index exceeds 1. -/
def hasHighMarker (parts : List (List Char)) : Bool :=
  parts.any fun p =>
    match searchMarker p with
    | some i => decide (1 < i)
    | none => false

/-- One step of the strict line scan (chatgpt.py lines 372-418): skip blank
lines; a line starting with a marker must carry an index inside `1..N` that
was not seen before (`none` models `is_valid_format = False` with `break`);
lines without a marker prefix are wrapped continuations and are skipped. -/
def scanLines (n : ℕ) : List (List Char) → Finset ℕ → Option (Finset ℕ)
  | [], found => some found
  | l :: ls, found =>
    let l' := pyStrip l
    if l' = [] then scanLines n ls found
    else
      match matchMarkerFrom l' with
      | some pr =>
        if 1 ≤ pr.1 ∧ pr.1 ≤ n then
          if pr.1 ∈ found then none
          else scanLines n ls (insert pr.1 found)
        else none
      | none => scanLines n ls found

/-- The strict prefix-format check (chatgpt.py lines 355-437): split the
stripped response into lines, scan them, then require that the collected
index set has the expected size and equals `{1..N}`. -/
def strictCheck (n : ℕ) (resp : List Char) : Bool :=
  let lines := pySplitChar '\n' (pyStrip resp)
  if lines = [] ∧ 0 < n then false
  else
    match scanLines n lines ∅ with
    | none => false
    | some found => decide (found.card = n) && decide (found = Finset.Icc 1 n)

/-- The three hallucination glyphs of `SUSPICIOUS_SYMBOLS`
(chatgpt.py line 447): U+0B39, U+0B3F, U+0D39. -/
def isSuspicious (c : Char) : Bool :=
  c.toNat = 0xB39 ∨ c.toNat = 0xB3F ∨ c.toNat = 0xD39

/-- Membership in Python's `string.punctuation`
(the 32 ASCII characters 0x21-0x2F, 0x3A-0x40, 0x5B-0x60, 0x7B-0x7E). -/
def isPunct (c : Char) : Bool :=
  let n := c.toNat
  (0x21 ≤ n ∧ n ≤ 0x2F) ∨ (0x3A ≤ n ∧ n ≤ 0x40) ∨ (0x5B ≤ n ∧ n ≤ 0x60) ∨ (0x7B ≤ n ∧ n ≤ 0x7E)

/-- Validation of one response against a batch (chatgpt.py lines 317-503):
split on markers and strip (319-324), drop a leading empty piece (326-327),
the single-query merge branch (331-351), the strict format check (355-437,
skipped when merged), the suspicious-symbol guard (447-450), the
empty-translation guard (455-471), the merged-punctuation guard (475-489)
and the count check (493-498).  Returns the accepted per-position pieces. -/
def validateResponse (queries : List (List Char)) (resp : List Char) : Option (List (List Char)) :=
  let n := queries.length
  let parts0 := (splitMarkers resp).map pyStrip
  let parts1 := dropLeadEmpty parts0
  let mergeCase : Bool := decide (n = 1) && decide (1 < parts1.length)
  let merged : Bool := mergeCase && hasHighMarker parts1.tail
  let parts2 :=
    if mergeCase then
      if hasHighMarker parts1.tail then [pyStrip (removeMarkers resp)] else parts1
    else dropLeadEmpty parts1
  if ¬ merged ∧ ¬ strictCheck n resp then none
  else if resp.any isSuspicious then none
  else if (queries.zip parts2).any (fun pr => decide (pyStrip pr.1 ≠ []) && decide (pr.2 = [])) then none
  else if (queries.zip parts2).any (fun pr => pr.2.all isPunct && !(pr.1.all isPunct)) then none
  else if parts2.length ≠ n then none
  else some parts2

/-! ## Fallback model (`OpenAITranslator._try_fallback_model`, chatgpt.py 177-270) -/

/-- One fallback response's acceptance check and result construction
(chatgpt.py lines 227-251): parse the response (227-229), require the piece
count to match the batch (232-234), require at least one piece that is
non-empty and differs from its source (237-244), and replace empty pieces by
their source query (246-248). -/
def fallbackAttempt (queries : List (List Char)) (resp : List Char) : Option (List (List Char)) :=
  let fb := dropLeadEmpty ((splitMarkers resp).map pyStrip)
  if fb.length = queries.length then
    let pairs := fb.zip queries
    if 0 < pairs.countP (fun pr => decide (pr.1 ≠ [] ∧ pr.1 ≠ pyStrip pr.2)) then
      some (pairs.map fun pr => if pr.1 ≠ [] then pr.1 else pr.2)
    else none
  else none

/-- The fallback retry loop (chatgpt.py lines 187-270): up to three requests
in total; an exception or a rejected response moves to the next try.  Returns
the accepted result (if any) and the number of requests consumed. -/
def tryFallbackGo (oracle : ℕ → Except Unit (List Char)) (queries : List (List Char)) :
    ℕ → ℕ → Option (List (List Char)) × ℕ
  | 0, _ => (none, 0)
  | tries + 1, k =>
    match oracle k with
    | .ok resp =>
      match fallbackAttempt queries resp with
      | some res => (some res, 1)
      | none =>
        let r := tryFallbackGo oracle queries tries (k + 1)
        (r.1, r.2 + 1)
    | .error _ =>
      let r := tryFallbackGo oracle queries tries (k + 1)
      (r.1, r.2 + 1)

/-- Total number of fallback requests, `fallback_max_attempts + 1 = 3`
(chatgpt.py lines 185-187). -/
def FALLBACK_TOTAL : ℕ := 3

/-- `_try_fallback_model` (chatgpt.py lines 177-270): an immediate failure
when no fallback model is configured (lines 182-183), otherwise the retry
loop. -/
def tryFallback (oracle : ℕ → Except Unit (List Char)) (fallbackOn : Bool)
    (queries : List (List Char)) (k : ℕ) : Option (List (List Char)) × ℕ :=
  if fallbackOn then tryFallbackGo oracle queries FALLBACK_TOTAL k else (none, 0)

/-! ## Batch recovery controller (`OpenAITranslator._translate_batch`, chatgpt.py 272-598) -/

/-- Configuration of the controller: `_RETRY_ATTEMPTS`, `_MAX_SPLIT_ATTEMPTS`
and whether `OPENAI_FALLBACK_MODEL` is configured. -/
structure TBCfg where
  retryAttempts : ℕ
  maxSplit : ℕ
  fallbackOn : Bool
deriving DecidableEq

/-- `max_attempts = max(1, self._RETRY_ATTEMPTS + 1)` (chatgpt.py line 310). -/
def maxAttemptsOf (cfg : TBCfg) : ℕ := max 1 (cfg.retryAttempts + 1)

/-- Result of the controller: the success flag, the per-position texts, and
the number of requests issued (used to index the oracle and to bound work). -/
structure TBRes where
  ok : Bool
  results : List (List Char)
  reqs : ℕ
deriving DecidableEq

/-- The retry loop of `_translate_batch` (chatgpt.py lines 311-526), with
`tries` attempts remaining: a request that returns text is validated
(success returns at line 510, rejection retries); a request that raises is a
failed attempt (line 512), except on the final attempt, where the fallback
model is tried inside the `except` handler (lines 518-526).  Returns the
successful results (if any) and the number of requests consumed (fallback
requests included). -/
def runAttempts (oracle : ℕ → Except Unit (List Char)) (cfg : TBCfg)
    (queries : List (List Char)) : ℕ → ℕ → Option (List (List Char)) × ℕ
  | 0, _ => (none, 0)
  | tries + 1, k =>
    match oracle k with
    | .ok resp =>
      match validateResponse queries resp with
      | some ts => (some ts, 1)
      | none =>
        let r := runAttempts oracle cfg queries tries (k + 1)
        (r.1, r.2 + 1)
    | .error _ =>
      if tries = 0 then
        let fb := tryFallback oracle cfg.fallbackOn queries (k + 1)
        (fb.1, 1 + fb.2)
      else
        let r := runAttempts oracle cfg queries tries (k + 1)
        (r.1, r.2 + 1)

/-- Fuelled body of `_translate_batch` (chatgpt.py lines 272-598).  An empty
batch returns immediately (lines 303-304).  Otherwise the retry loop runs;
on success the results are returned (line 510 or 526).  After the loop the
fallback is tried once more (lines 528-535; `partial_results` is still all
empty there, so the `not any(...)` guard always holds).  If that also fails:
when `split_level < _MAX_SPLIT_ATTEMPTS` and the batch has more than one
query, the batch is halved at `mid = len // 2` and both halves are recursed
on with `split_level + 1` (lines 540-581, merging by concatenation and
conjunction); otherwise every position is filled with its source query and
failure is returned (lines 582-598).  Fuel `queries.length` suffices because
both halves are strictly shorter.  Concurrency is modelled as left half
first, right half second. -/
def translateGo (oracle : ℕ → Except Unit (List Char)) (cfg : TBCfg) :
    ℕ → List (List Char) → ℕ → ℕ → TBRes
  | 0, queries, _, _ => if queries = [] then ⟨true, [], 0⟩ else ⟨false, queries, 0⟩
  | fuel + 1, queries, level, k =>
    if queries = [] then ⟨true, [], 0⟩
    else
      let att := runAttempts oracle cfg queries (maxAttemptsOf cfg) k
      match att.1 with
      | some ts => ⟨true, ts, att.2⟩
      | none =>
        let fb := tryFallback oracle cfg.fallbackOn queries (k + att.2)
        match fb.1 with
        | some res => ⟨true, res, att.2 + fb.2⟩
        | none =>
          if level < cfg.maxSplit ∧ 1 < queries.length then
            let mid := queries.length / 2
            let lres := translateGo oracle cfg fuel (queries.take mid) (level + 1) (k + att.2 + fb.2)
            let rres := translateGo oracle cfg fuel (queries.drop mid) (level + 1)
              (k + att.2 + fb.2 + lres.reqs)
            ⟨lres.ok && rres.ok, lres.results ++ rres.results, att.2 + fb.2 + lres.reqs + rres.reqs⟩
          else ⟨false, queries, att.2 + fb.2⟩

/-- `_translate_batch` with the oracle's request numbering starting at `k`. -/
def translateBatch (oracle : ℕ → Except Unit (List Char)) (cfg : TBCfg)
    (queries : List (List Char)) (level : ℕ) (k : ℕ) : TBRes :=
  translateGo oracle cfg queries.length queries level k

/-! ## Well-formed responses for claim C3 -/

/-- Join lines with single newlines (how the well-formed responses of
claim C3 are put together). -/
def joinLines : List (List Char) → List Char
  | [] => []
  | [l] => l
  | l :: l' :: ls => l ++ '\n' :: joinLines (l' :: ls)

/-- One labelled response line `<|i|>text`. -/
def lineOf (p : ℕ × List Char) : List Char := markerChars p.1 ++ p.2

/-- A well-formed response: one labelled line per item, joined by newlines.
The item order is the order in which the lines appear in the response text;
the labels may be any permutation of `1..N`. -/
def mkResponse (items : List (ℕ × List Char)) : List Char := joinLines (items.map lineOf)

/-- The pieces `re.split` produces from `mkResponse` after its leading empty
piece: every piece but the last still carries the newline that separated it
from the following marker. -/
def segParts : List (ℕ × List Char) → List (List Char)
  | [] => []
  | [p] => [p.2]
  | p :: p' :: ps => (p.2 ++ ['\n']) :: segParts (p' :: ps)

/-- Well-formedness of one segment text for claim C3: non-empty, already
stripped (no leading or trailing whitespace), free of newlines, of `<`
(so it cannot take part in a marker), free of the suspicious glyphs, and not
made of punctuation only. -/
def segOk (t : List Char) : Bool :=
  decide (t ≠ []) && decide (t.dropWhile isPySpace = t) &&
    decide (t.reverse.dropWhile isPySpace = t.reverse) &&
    decide ('\n' ∉ t) && decide ('<' ∉ t) &&
    (t.all fun c => !isSuspicious c) && !(t.all isPunct)

/-- The texts of the response lines that start with the marker `<|i|>`
(what the spec calls "the segment labeled i"). -/
def segmentsLabeled (i : ℕ) (resp : List Char) : List (List Char) :=
  (pySplitChar '\n' (pyStrip resp)).filterMap fun l =>
    match matchMarkerFrom (pyStrip l) with
    | some pr => if pr.1 = i then some pr.2 else none
    | none => none

/-! ## Glossary loading (chatgpt.py lines 832-1108)

A glossary file is modelled as the list of its lines (as `readlines` returns
them, possibly still carrying trailing whitespace).  Python's `re.compile`
validity check is external library behaviour; `reCompileOk` is a conservative
model of it covering the failure modes the source's own error handling names
("unbalanced parenthesis", "missing )"): a pattern with unbalanced round
parentheses does not compile.  Escapes and character classes are not
modelled; no pattern in this development uses them. -/

/-- Depth-scan helper for `reCompileOk`. -/
def parenDepthOk : List Char → ℕ → Bool
  | [], d => d = 0
  | c :: cs, d =>
    if c = '(' then parenDepthOk cs (d + 1)
    else if c = ')' then
      match d with
      | 0 => false
      | d' + 1 => parenDepthOk cs d'
    else parenDepthOk cs d

/-- Conservative model of `re.compile(pattern)` succeeding: round
parentheses must balance (the source's own diagnostics for `re.error` list
exactly these cases, chatgpt.py lines 1010-1023). -/
def reCompileOk (p : List Char) : Bool := parenDepthOk p 0

/-- The glossary file formats recognised by `detect_type`
(chatgpt.py lines 853-924). -/
inductive DicType where
  | sakura | galtransl | mit | unknown
deriving DecidableEq

/-- A comment line of the sakura / galtransl scans: starts with two
backslashes or two slashes (chatgpt.py lines 868, 885). -/
def startsSlashComment (l : List Char) : Bool :=
  leadsWith (s2l "\\\\") l || leadsWith (s2l "//") l

/-- The sakura-detection scan (chatgpt.py lines 864-877): every non-blank
non-comment line must contain `->`; at least one such line must exist. -/
def detectSakuraGo : List (List Char) → ℕ → Bool
  | [], count => decide (0 < count)
  | raw :: ls, count =>
    let l := pyStrip raw
    if l = [] ∨ startsSlashComment l then detectSakuraGo ls count
    else if occursIn (s2l "->") l then detectSakuraGo ls (count + 1)
    else false

/-- The galtransl-detection scan (chatgpt.py lines 881-894): every non-blank
non-comment line must contain a tab or four spaces. -/
def detectGaltranslGo : List (List Char) → ℕ → Bool
  | [], count => decide (0 < count)
  | raw :: ls, count =>
    let l := pyStrip raw
    if l = [] ∨ startsSlashComment l then detectGaltranslGo ls count
    else if occursIn (s2l "\t") l || occursIn (s2l "    ") l then detectGaltranslGo ls (count + 1)
    else false

/-- Split at the first occurrence of a separator string, the model of
Python `line.split(sep, 1)` restricted to the case where the separator
occurs (returns `none` otherwise). -/
def splitOnceAt (sep : List Char) : List Char → Option (List Char × List Char)
  | [] => if sep = [] then some ([], []) else none
  | c :: cs =>
    if leadsWith sep (c :: cs) then some ([], (c :: cs).drop sep.length)
    else
      match splitOnceAt sep cs with
      | some pr => some (c :: pr.1, pr.2)
      | none => none

/-- Model of Python `line.split(None, 1)` on a whitespace-stripped line:
the first whitespace-free token, and (when present) the remainder after the
following whitespace run. -/
def splitNoneOnce (l : List Char) : List (List Char) :=
  let l' := l.dropWhile isPySpace
  let tok := l'.takeWhile fun c => ¬ isPySpace c
  let rest := ((l'.dropWhile fun c => ¬ isPySpace c).dropWhile isPySpace)
  if tok = [] then []
  else if rest = [] then [tok]
  else [tok, rest]

/-- The source/target split of the MIT format (chatgpt.py lines 911-913 and
961-963): first a single split at a tab, else a whitespace split. -/
def mitParts (l : List Char) : List (List Char) :=
  match splitOnceAt (s2l "\t") l with
  | some pr => [pr.1, pr.2]
  | none => splitNoneOnce l

/-- The mit-detection scan (chatgpt.py lines 898-922): every non-blank
line not starting with `#` or `//` must be free of `->` and must split into
two parts. -/
def detectMitGo : List (List Char) → ℕ → Bool
  | [], count => decide (0 < count)
  | raw :: ls, count =>
    let l := pyStrip raw
    if l = [] ∨ leadsWith (s2l "#") l ∨ leadsWith (s2l "//") l then detectMitGo ls count
    else if occursIn (s2l "->") l then false
    else if 2 ≤ (mitParts l).length then detectMitGo ls (count + 1)
    else false

/-- `detect_type` (chatgpt.py lines 853-924): try sakura, then galtransl,
then mit; otherwise unknown.  An empty file is unknown. -/
def detectType (lines : List (List Char)) : DicType :=
  if lines = [] then DicType.unknown
  else if detectSakuraGo lines 0 then DicType.sakura
  else if detectGaltranslGo lines 0 then DicType.galtransl
  else if detectMitGo lines 0 then DicType.mit
  else DicType.unknown

/-- `load_sakura_dict`'s per-line loop (chatgpt.py lines 1085-1101): skip
comments and blanks; a line containing `->` is split at its first occurrence
into a stripped source/target pair.  The Python dict is modelled as the
association list of accepted pairs in line order. -/
def loadSakuraDict : List (List Char) → List (List Char × List Char)
  | [] => []
  | raw :: ls =>
    let l := pyStrip raw
    if startsSlashComment l ∨ l = [] then loadSakuraDict ls
    else
      match splitOnceAt (s2l "->") l with
      | some pr => (pyStrip pr.1, pyStrip pr.2) :: loadSakuraDict ls
      | none => loadSakuraDict ls

/-- Model of Python `line.split("\t")` (all occurrences). -/
def splitAllTabs : List Char → List (List Char)
  | [] => [[]]
  | c :: cs => if c = '\t' then [] :: splitAllTabs cs else consHead c (splitAllTabs cs)

/-- `load_galtransl_dic`'s per-line loop (chatgpt.py lines 1045-1061): skip
comment/blank lines (tested on the raw line); split on tabs, and when that
does not give exactly two parts, split once at four spaces; accept a
two-part split as a stripped pair. -/
def loadGaltranslDic : List (List Char) → List (List Char × List Char)
  | [] => []
  | raw :: ls =>
    if startsSlashComment raw ∨ pyStrip raw = [] then loadGaltranslDic ls
    else
      let parts := splitAllTabs raw
      let parts := if parts.length = 2 then parts else
        match splitOnceAt (s2l "    ") raw with
        | some pr => [pr.1, pr.2]
        | none => [raw]
      match parts with
      | [a, b] => (pyStrip a, pyStrip b) :: loadGaltranslDic ls
      | _ => loadGaltranslDic ls

/-- `_`-to-space rewriting of the MIT loader (`.replace('_', ' ')`,
chatgpt.py lines 971-972). -/
def underscoreToSpace (l : List Char) : List Char :=
  l.map fun c => if c = '_' then ' ' else c

/-- `load_mit_dict`'s per-line loop (chatgpt.py lines 942-1027): skip blank
and comment lines; cut a trailing `#` or `//` comment; split into source and
target; keep the entry only when the source compiles as a regular
expression, appending the comment to the target when present.  Entries whose
source does not compile are skipped (only a diagnostic is logged). -/
def loadMitDict : List (List Char) → List (List Char × List Char)
  | [] => []
  | raw :: ls =>
    let l := pyStrip raw
    if l = [] ∨ leadsWith (s2l "#") l ∨ leadsWith (s2l "//") l then loadMitDict ls
    else
      let cut :=
        if occursIn (s2l "#") l then
          match splitOnceAt (s2l "#") l with
          | some pr => (pyStrip pr.1, '#' :: pr.2)
          | none => (l, [])
        else if occursIn (s2l "//") l then
          match splitOnceAt (s2l "//") l with
          | some pr => (pyStrip pr.1, '/' :: '/' :: pr.2)
          | none => (l, [])
        else (l, [])
      match mitParts cut.1 with
      | a :: b :: _ =>
        let src := underscoreToSpace (pyStrip a)
        let dst := underscoreToSpace (pyStrip b)
        if reCompileOk src then
          (src, if cut.2 = [] then dst else dst ++ ' ' :: cut.2) :: loadMitDict ls
        else loadMitDict ls
      | _ => loadMitDict ls

/-- `load_glossary` (chatgpt.py lines 832-851): dispatch on the detected
format; unknown formats load as an empty glossary. -/
def loadGlossary (lines : List (List Char)) : List (List Char × List Char) :=
  match detectType lines with
  | DicType.sakura => loadSakuraDict lines
  | DicType.galtransl => loadGaltranslDic lines
  | DicType.mit => loadMitDict lines
  | DicType.unknown => []

/-! ## Glossary matcher (`OpenAITranslator.extract_relevant_terms`, chatgpt.py 1110-1278) -/

/-- The small-kana table of `normalize_japanese` (chatgpt.py lines 1151-1156). -/
def smallKanaToNormal (c : Char) : Char :=
  if c = 'ァ' then 'ア' else if c = 'ィ' then 'イ' else if c = 'ゥ' then 'ウ'
  else if c = 'ェ' then 'エ' else if c = 'ォ' then 'オ'
  else if c = 'ッ' then 'ツ' else if c = 'ャ' then 'ヤ' else if c = 'ュ' then 'ユ'
  else if c = 'ョ' then 'ヨ'
  else if c = 'ぁ' then 'あ' else if c = 'ぃ' then 'い' else if c = 'ぅ' then 'う'
  else if c = 'ぇ' then 'え' else if c = 'ぉ' then 'お'
  else if c = 'っ' then 'つ' else if c = 'ゃ' then 'や' else if c = 'ゅ' then 'ゆ'
  else if c = 'ょ' then 'よ' else c

/-- One character of `normalize_japanese` (chatgpt.py lines 1145-1171):
normalise small kana, then shift katakana (U+30A0..U+30FF) down to hiragana. -/
def normalizeJapaneseChar (c : Char) : Char :=
  let c := smallKanaToNormal c
  if 0x30A0 ≤ c.toNat ∧ c.toNat ≤ 0x30FF then Char.ofNat (c.toNat - 0x60) else c

/-- `normalize_japanese` (chatgpt.py lines 1145-1171). -/
def normalizeJapanese (l : List Char) : List Char := l.map normalizeJapaneseChar

/-- The character class kept by `re.sub(r'[^\w\s]', '', term)`: word
characters.  Python's Unicode `\w` is modelled for the scripts this code
handles: ASCII alphanumerics, underscore, kana (U+3040..U+30FF) and CJK
ideographs (U+4E00..U+9FFF). -/
def isWordChar (c : Char) : Bool :=
  c.isAlphanum ∨ c = '_' ∨ (0x3040 ≤ c.toNat ∧ c.toNat ≤ 0x30FF) ∨
    (0x4E00 ≤ c.toNat ∧ c.toNat ≤ 0x9FFF)

/-- `normalize_term` (chatgpt.py lines 1174-1180): strip punctuation (keep
word characters and whitespace), lower-case, then kana normalisation. -/
def normTerm (l : List Char) : List Char :=
  normalizeJapanese ((l.filter fun c => isWordChar c || isPySpace c).map Char.toLower)

/-- Inner loop of `levenshtein_distance` (chatgpt.py lines 1125-1132):
walk `s2` with the previous DP row and the last value of the current row. -/
def levInner : List Char → List ℕ → ℕ → Char → List ℕ
  | [], _, _, _ => []
  | c2 :: rest, prev, curLast, c1 =>
    match prev with
    | p0 :: p1 :: ptail =>
      let v := min (p1 + 1) (min (curLast + 1) (p0 + if c1 = c2 then 0 else 1))
      v :: levInner rest (p1 :: ptail) v c1
    | _ => []

/-- Outer loop of `levenshtein_distance` (chatgpt.py lines 1124-1134):
one DP row per character of `s1`; the row starts with the row index. -/
def levRows : List Char → List ℕ → ℕ → List Char → List ℕ
  | [], prev, _, _ => prev
  | c1 :: rest, prev, i, s2 => levRows rest ((i + 1) :: levInner s2 prev (i + 1) c1) (i + 1) s2

/-- `levenshtein_distance` with `len s1 ≥ len s2` (chatgpt.py lines 1118-1134). -/
def levenshteinRaw (s1 s2 : List Char) : ℕ :=
  if s2 = [] then s1.length
  else (levRows s1 (List.range (s2.length + 1)) 0 s2).getLastD 0

/-- `levenshtein_distance` (chatgpt.py lines 1118-1134), including the
initial swap to make the first argument the longer one. -/
def levDist (s1 s2 : List Char) : ℕ :=
  if s1.length < s2.length then levenshteinRaw s2 s1 else levenshteinRaw s1 s2

/-- `partial_match` (chatgpt.py lines 1183-1186). -/
def partialMatch (text term : List Char) : Bool :=
  occursIn (normTerm term) (normTerm text)

/-- `is_japanese_similar` (chatgpt.py lines 1189-1216): thresholds 0/1 for
short terms, the default 2 otherwise; `japanese_levenshtein_distance`
re-normalises both sides before the distance. -/
def isJapaneseSimilar (text term : List Char) : Bool :=
  let ntext := normTerm text
  let nterm := normTerm term
  let th := if nterm.length ≤ 2 then 0 else if nterm.length ≤ 4 then 1 else 2
  decide (levDist (normalizeJapanese ntext) (normalizeJapanese nterm) ≤ th)

/-- `is_general_similar` (chatgpt.py lines 1219-1248): length-scaled
threshold clamped to `[0,3]`; sliding-window comparison when the text is
more than five times longer than the term, full comparison otherwise. -/
def isGeneralSimilar (text term : List Char) : Bool :=
  let ntext := normTerm text
  let nterm := normTerm term
  let th := min (nterm.length / 8) 3
  if nterm.length * 5 < ntext.length then
    let ws := if nterm.length ≤ 8 then nterm.length
      else if nterm.length ≤ 16 then nterm.length + 1
      else nterm.length + 2
    ((List.range (ntext.length + 1 - ws)).map fun i => (ntext.drop i).take ws).any
      fun w => decide (levDist w nterm ≤ th)
  else decide (levDist ntext nterm ≤ th)

/-- `term.replace(" ", "")` (chatgpt.py line 1253). -/
def removeSpaces (l : List Char) : List Char := l.filter fun c => !(c == ' ')

/-- The Japanese-character gate of step 2
(`any(c for c in term if 0x3040 <= ord(c) <= 0x30FF)`, chatgpt.py line 1258). -/
def hasJapaneseChar (term : List Char) : Bool :=
  term.any fun c => 0x3040 ≤ c.toNat ∧ c.toNat ≤ 0x30FF

/-- Model of `re.compile(term, re.IGNORECASE).search(text)` for literal
patterns: case-insensitive substring containment. -/
def ciOccurs (pat text : List Char) : Bool :=
  occursIn (pat.map Char.toLower) (text.map Char.toLower)

/-- One entry of the main matching logic (chatgpt.py lines 1251-1276):
exact containment (1253), Japanese similarity behind the script gate
(1258-1261), general similarity for other terms (1264-1266), partial match
(1269-1271), and finally the regular-expression search (1274-1276), which
raises (`Except.error`) when the term does not compile. -/
def entryMatch (text term : List Char) : Except Unit Bool :=
  if occursIn term text || occursIn (removeSpaces term) text then .ok true
  else if hasJapaneseChar term then
    if isJapaneseSimilar text term then .ok true
    else if partialMatch text term then .ok true
    else if reCompileOk term then .ok (ciOccurs term text) else .error ()
  else if isGeneralSimilar text term then .ok true
  else if partialMatch text term then .ok true
  else if reCompileOk term then .ok (ciOccurs term text) else .error ()

/-- The entry loop of `extract_relevant_terms` (chatgpt.py lines 1251-1278):
matched entries are collected in iteration order; an exception raised while
handling any entry aborts the whole call. -/
def extractGo (text : List Char) : List (List Char × List Char) →
    Except Unit (List (List Char × List Char))
  | [] => .ok []
  | e :: rest =>
    match entryMatch text e.1 with
    | .error u => .error u
    | .ok b =>
      match extractGo text rest with
      | .error u => .error u
      | .ok m => .ok (if b then e :: m else m)

/-- `extract_relevant_terms` over a glossary given as an association list. -/
def extractRelevantTerms (entries : List (List Char × List Char)) (text : List Char) :
    Except Unit (List (List Char × List Char)) :=
  extractGo text entries

/-! # Theorems -/

/-! ## Prompt assembler: claim C1 -/

theorem chunkGo_flatten (maxC : ℕ) (qs : List (List Char)) :
    ∀ batch curLen, (chunkGo maxC qs batch curLen).flatten = batch ++ qs := by
  induction qs with
  | nil =>
    intro batch curLen
    by_cases h : batch = [] <;> simp [chunkGo, h]
  | cons q qs ih =>
    intro batch curLen
    rw [chunkGo]
    split
    · simp [ih]
    · simp [ih]

theorem chunkGo_ne_nil (maxC : ℕ) (qs : List (List Char)) :
    ∀ batch curLen b, b ∈ chunkGo maxC qs batch curLen → b ≠ [] := by
  induction qs with
  | nil =>
    intro batch curLen b hb
    by_cases h : batch = [] <;> simp [chunkGo, h] at hb
    simp [hb, h]
  | cons q qs ih =>
    intro batch curLen b hb
    rw [chunkGo] at hb
    split at hb
    case isTrue hcond =>
      rcases List.mem_cons.mp hb with h | h
      · subst h; exact hcond.2
      · exact ih _ _ _ h
    case isFalse => exact ih _ _ _ hb

/-- Claim C1: for every input list of queries, concatenating the query
groups produced by the prompt assembler in yield order reconstructs exactly
the original list (hence no gaps, no duplicates, no reordering), and no
produced group is empty (in particular, an empty input produces no groups at
all). -/
theorem assembleChunks_reconstruct (maxC : ℕ) (queries : List (List Char)) :
    (assembleChunks maxC queries).flatten = queries ∧
    ∀ b ∈ assembleChunks maxC queries, b ≠ [] := by
  constructor
  · simpa using chunkGo_flatten maxC queries [] 0
  · intro b hb
    exact chunkGo_ne_nil maxC queries [] 0 b hb

/-- Witness for C1 at a concrete budget and query list (the budget forces
three separate groups). -/
theorem assembleChunks_reconstruct_witness :
    (assembleChunks 20 [s2l "aaa", s2l "bbbbbbbbbbbb", s2l "cc"]).flatten =
      [s2l "aaa", s2l "bbbbbbbbbbbb", s2l "cc"] ∧
    ∀ b ∈ assembleChunks 20 [s2l "aaa", s2l "bbbbbbbbbbbb", s2l "cc"], b ≠ [] :=
  assembleChunks_reconstruct 20 [s2l "aaa", s2l "bbbbbbbbbbbb", s2l "cc"]

/-! ## Marker matching and splitting: basic laws -/

theorem takeWhile_all_append {p : Char → Bool} {xs : List Char} {y : Char} (ys : List Char)
    (hall : ∀ c ∈ xs, p c = true) (hy : p y = false) :
    (xs ++ y :: ys).takeWhile p = xs := by
  induction xs with
  | nil => simp [List.takeWhile_cons, hy]
  | cons x xs ih =>
    have hx : p x = true := hall x (List.mem_cons_self x xs)
    simp only [List.cons_append, List.takeWhile_cons, hx]
    simp [ih fun c hc => hall c (List.mem_cons_of_mem x hc)]

theorem dropWhile_all_append {p : Char → Bool} {xs : List Char} {y : Char} (ys : List Char)
    (hall : ∀ c ∈ xs, p c = true) (hy : p y = false) :
    (xs ++ y :: ys).dropWhile p = y :: ys := by
  induction xs with
  | nil => simp [List.dropWhile_cons, hy]
  | cons x xs ih =>
    have hx : p x = true := hall x (List.mem_cons_self x xs)
    simp only [List.cons_append, List.dropWhile_cons, hx]
    simp [ih fun c hc => hall c (List.mem_cons_of_mem x hc)]


theorem matchMarkerFrom_sound {l : List Char} {i : ℕ} {r : List Char}
    (h : matchMarkerFrom l = some (i, r)) :
    ∃ ds, ds ≠ [] ∧ (∀ c ∈ ds, isDig c = true) ∧ digitsVal ds = i ∧
      l = '<' :: '|' :: (ds ++ '|' :: '>' :: r) := by
  simp only [matchMarkerFrom] at h
  split at h
  case isFalse => exact absurd h (by simp)
  case isTrue htake =>
    split at h
    case isFalse => exact absurd h (by simp)
    case isTrue hcond =>
      have hval : digitsVal ((l.drop 2).takeWhile isDig) = i := by
        injection h with h'
        exact congrArg Prod.fst h'
      have hr : ((l.drop 2).dropWhile isDig).drop 2 = r := by
        injection h with h'
        exact congrArg Prod.snd h'
      refine ⟨(l.drop 2).takeWhile isDig, hcond.1, fun c hc => List.mem_takeWhile_imp hc,
        hval, ?_⟩
      have hl : l = l.take 2 ++ l.drop 2 := (List.take_append_drop 2 l).symm
      have hdecomp : l.drop 2 =
          (l.drop 2).takeWhile isDig ++ (l.drop 2).dropWhile isDig :=
        (List.takeWhile_append_dropWhile isDig (l.drop 2)).symm
      have htail : (l.drop 2).dropWhile isDig =
          '|' :: '>' :: ((l.drop 2).dropWhile isDig).drop 2 := by
        have h2 := hcond.2
        have h3 := (List.take_append_drop 2 ((l.drop 2).dropWhile isDig)).symm
        rw [h2] at h3
        simpa using h3
      calc l = l.take 2 ++ l.drop 2 := hl
        _ = '<' :: '|' :: l.drop 2 := by rw [htake]; rfl
        _ = '<' :: '|' :: ((l.drop 2).takeWhile isDig ++ (l.drop 2).dropWhile isDig) := by
              rw [← hdecomp]
        _ = '<' :: '|' :: ((l.drop 2).takeWhile isDig ++ '|' :: '>' :: r) := by
              rw [htail, hr]

theorem matchMarkerFrom_complete {ds : List Char} (r : List Char) (hne : ds ≠ [])
    (hdig : ∀ c ∈ ds, isDig c = true) :
    matchMarkerFrom ('<' :: '|' :: (ds ++ '|' :: '>' :: r)) = some (digitsVal ds, r) := by
  have hpipe : isDig '|' = false := by decide
  simp only [matchMarkerFrom, List.take, List.drop]
  rw [takeWhile_all_append _ hdig hpipe, dropWhile_all_append _ hdig hpipe]
  simp [hne]

theorem matchMarkerFrom_length {l : List Char} {pr : ℕ × List Char}
    (h : matchMarkerFrom l = some pr) : pr.2.length < l.length := by
  obtain ⟨ds, hne, -, -, hl⟩ := matchMarkerFrom_sound (l := l) (i := pr.1) (r := pr.2)
    (by simpa using h)
  have : ds.length ≠ 0 := fun hz => hne (List.eq_nil_of_length_eq_zero hz)
  simp [hl]
  omega

theorem matchMarkerFrom_append {l u : List Char} {i : ℕ} {r : List Char}
    (h : matchMarkerFrom l = some (i, r)) :
    matchMarkerFrom (l ++ u) = some (i, r ++ u) := by
  obtain ⟨ds, hne, hdig, hval, hl⟩ := matchMarkerFrom_sound h
  subst hl
  have happ : ('<' :: '|' :: (ds ++ '|' :: '>' :: r)) ++ u =
      '<' :: '|' :: (ds ++ '|' :: '>' :: (r ++ u)) := by simp
  rw [happ, matchMarkerFrom_complete (r ++ u) hne hdig, hval]

theorem matchMarkerFrom_nil : matchMarkerFrom [] = none := by
  simp [matchMarkerFrom]

theorem matchMarkerFrom_not_lt {c : Char} (cs : List Char) (h : c ≠ '<') :
    matchMarkerFrom (c :: cs) = none := by
  unfold matchMarkerFrom
  rw [if_neg]
  intro hc
  cases cs with
  | nil => simp [List.take] at hc
  | cons c2 rest =>
    simp [List.take] at hc
    exact h hc.1

theorem consHead_ne_nil (c : Char) (ls : List (List Char)) : consHead c ls ≠ [] := by
  cases ls <;> simp [consHead]

theorem splitGo_congr : ∀ (f1 f2 : ℕ) (l : List Char), l.length ≤ f1 → l.length ≤ f2 →
    splitGo f1 l = splitGo f2 l := by
  intro f1
  induction f1 with
  | zero =>
    intro f2 l h1 _
    have : l = [] := List.eq_nil_of_length_eq_zero (Nat.le_zero.mp h1)
    subst this
    cases f2 <;> simp [splitGo]
  | succ f ih =>
    intro f2 l h1 h2
    cases l with
    | nil => cases f2 <;> simp [splitGo]
    | cons c cs =>
      cases f2 with
      | zero => simp at h2
      | succ f2' =>
        simp only [List.length_cons] at h1 h2
        cases hm : matchMarkerFrom (c :: cs) with
        | some pr =>
          have hlen := matchMarkerFrom_length hm
          simp only [List.length_cons] at hlen
          simp only [splitGo, hm]
          rw [ih f2' pr.2 (by omega) (by omega)]
        | none =>
          simp only [splitGo, hm]
          rw [ih f2' cs (by omega) (by omega)]

theorem splitMarkers_nil : splitMarkers [] = [[]] := rfl

theorem splitMarkers_cons (c : Char) (cs : List Char) :
    splitMarkers (c :: cs) =
      match matchMarkerFrom (c :: cs) with
      | some pr => [] :: splitMarkers pr.2
      | none => consHead c (splitMarkers cs) := by
  show splitGo (c :: cs).length (c :: cs) = _
  cases hm : matchMarkerFrom (c :: cs) with
  | some pr =>
    have hlen := matchMarkerFrom_length hm
    simp only [List.length_cons] at hlen
    simp only [List.length_cons, splitGo, hm]
    exact congrArg (List.cons []) (splitGo_congr _ _ _ (by omega) (by omega))
  | none =>
    simp only [List.length_cons, splitGo, hm]
    exact congrArg (consHead c) (splitGo_congr _ _ _ (by omega) (by omega))

theorem splitMarkers_ne_nil : ∀ l : List Char, splitMarkers l ≠ [] := by
  intro l
  cases l with
  | nil => simp [splitMarkers_nil]
  | cons c cs =>
    rw [splitMarkers_cons]
    cases matchMarkerFrom (c :: cs) with
    | some pr => simp
    | none => simpa using consHead_ne_nil c (splitMarkers cs)

theorem splitMarkers_marker {l : List Char} {i : ℕ} {s : List Char}
    (h : matchMarkerFrom l = some (i, s)) : splitMarkers l = [] :: splitMarkers s := by
  cases l with
  | nil => rw [matchMarkerFrom_nil] at h; exact absurd h (by simp)
  | cons c cs => rw [splitMarkers_cons, h]

theorem splitMarkers_append_no_lt {t : List Char} (hno : ∀ c ∈ t, c ≠ '<') (r : List Char) :
    splitMarkers (t ++ r) = (t ++ (splitMarkers r).headI) :: (splitMarkers r).tail := by
  induction t with
  | nil =>
    cases hsp : splitMarkers r with
    | nil => exact absurd hsp (splitMarkers_ne_nil r)
    | cons p ps => simp [hsp]
  | cons c t ih =>
    have hc : c ≠ '<' := hno c (List.mem_cons_self c t)
    rw [List.cons_append, splitMarkers_cons, matchMarkerFrom_not_lt _ hc]
    rw [ih fun x hx => hno x (List.mem_cons_of_mem c hx)]
    simp [consHead]

/-! ## The split pieces never contain a marker (dead code of the merge branch) -/

theorem searchMarker_cons (c : Char) (cs : List Char) :
    searchMarker (c :: cs) =
      match matchMarkerFrom (c :: cs) with
      | some pr => some pr.1
      | none => searchMarker cs := rfl

theorem searchMarker_none_iff (l : List Char) :
    searchMarker l = none ↔ ∀ t, t <:+ l → matchMarkerFrom t = none := by
  induction l with
  | nil =>
    simp only [searchMarker]
    constructor
    · intro _ t ht
      rw [List.suffix_nil.mp ht]
      exact matchMarkerFrom_nil
    · intro _; trivial
  | cons c cs ih =>
    rw [searchMarker_cons]
    cases hm : matchMarkerFrom (c :: cs) with
    | some pr =>
      simp only []
      constructor
      · intro h; exact absurd h (by simp)
      · intro h
        have := h (c :: cs) (List.suffix_refl _)
        rw [hm] at this
        exact absurd this (by simp)
    | none =>
      simp only [ih]
      constructor
      · intro h t ht
        rcases List.suffix_cons_iff.mp ht with h1 | h1
        · rw [h1]; exact hm
        · exact h t h1
      · intro h t ht
        exact h t (ht.trans (List.suffix_cons c cs))

theorem searchMarker_none_of_sub {l l' : List Char} (h : l' <:+: l)
    (hn : searchMarker l = none) : searchMarker l' = none := by
  rw [searchMarker_none_iff] at hn ⊢
  intro t ht
  obtain ⟨a, b, hab⟩ := h
  cases hmt : matchMarkerFrom t with
  | none => rfl
  | some pr =>
    obtain ⟨u, hu⟩ := ht
    have htb : (t ++ b) <:+ l := by
      refine ⟨a ++ u, ?_⟩
      rw [← hab, ← hu]
      simp
    have := matchMarkerFrom_append (u := b) (by simpa using hmt)
    rw [hn (t ++ b) htb] at this
    exact absurd this (by simp)

theorem splitMarkers_headI_prefix : ∀ (n : ℕ) (l : List Char), l.length ≤ n →
    (splitMarkers l).headI <+: l := by
  intro n
  induction n with
  | zero =>
    intro l h
    have : l = [] := List.eq_nil_of_length_eq_zero (Nat.le_zero.mp h)
    subst this
    simp [splitMarkers_nil]
  | succ n ih =>
    intro l h
    cases l with
    | nil => simp [splitMarkers_nil]
    | cons c cs =>
      rw [splitMarkers_cons]
      cases hm : matchMarkerFrom (c :: cs) with
      | some pr => simp
      | none =>
        simp only [List.length_cons] at h
        have hp := ih cs (by omega)
        cases hsp : splitMarkers cs with
        | nil => exact absurd hsp (splitMarkers_ne_nil cs)
        | cons p ps =>
          rw [hsp] at hp
          simp only [consHead, List.headI]
          simpa using hp

theorem splitMarkers_no_marker : ∀ (n : ℕ) (l : List Char), l.length ≤ n →
    ∀ p ∈ splitMarkers l, searchMarker p = none := by
  intro n
  induction n with
  | zero =>
    intro l h p hp
    have : l = [] := List.eq_nil_of_length_eq_zero (Nat.le_zero.mp h)
    subst this
    simp [splitMarkers_nil] at hp
    simp [hp, searchMarker]
  | succ n ih =>
    intro l h p hp
    cases l with
    | nil =>
      simp [splitMarkers_nil] at hp
      simp [hp, searchMarker]
    | cons c cs =>
      simp only [List.length_cons] at h
      rw [splitMarkers_cons] at hp
      cases hm : matchMarkerFrom (c :: cs) with
      | some pr =>
        rw [hm] at hp
        have hlen := matchMarkerFrom_length hm
        simp only [List.length_cons] at hlen
        rcases List.mem_cons.mp hp with h1 | h1
        · simp [h1, searchMarker]
        · exact ih pr.2 (by omega) p h1
      | none =>
        rw [hm] at hp
        cases hsp : splitMarkers cs with
        | nil => exact absurd hsp (splitMarkers_ne_nil cs)
        | cons p0 ps =>
          rw [hsp] at hp
          simp only [consHead] at hp
          rcases List.mem_cons.mp hp with h1 | h1
          · subst h1
            have hp0 : searchMarker p0 = none :=
              ih cs (by omega) p0 (by rw [hsp]; exact List.mem_cons_self _ _)
            rw [searchMarker_cons]
            cases hmc : matchMarkerFrom (c :: p0) with
            | some pr' =>
              exfalso
              have hpre : p0 <+: cs := by
                have := splitMarkers_headI_prefix cs.length cs le_rfl
                rw [hsp] at this
                simpa using this
              obtain ⟨u, hu⟩ := hpre
              have := matchMarkerFrom_append (u := u) (by simpa using hmc)
              rw [show (c :: p0) ++ u = c :: cs by simp [← hu]] at this
              rw [hm] at this
              exact absurd this (by simp)
            | none => exact hp0
          · exact ih cs (by omega) p (by rw [hsp]; exact List.mem_cons_of_mem _ h1)

theorem pyStrip_within (l : List Char) : pyStrip l <:+: l := by
  have h1 : l.dropWhile isPySpace <:+ l := List.dropWhile_suffix isPySpace
  have h2 : (l.dropWhile isPySpace).reverse.dropWhile isPySpace <:+
      (l.dropWhile isPySpace).reverse := List.dropWhile_suffix isPySpace
  have h3 : pyStrip l <+: l.dropWhile isPySpace := by
    rw [pyStrip]
    rw [← List.reverse_suffix]
    simpa using h2
  exact h3.isInfix.trans h1.isInfix

theorem searchMarker_piece_none {resp p : List Char} (hp : p ∈ splitMarkers resp) :
    searchMarker (pyStrip p) = none :=
  searchMarker_none_of_sub (pyStrip_within p)
    (splitMarkers_no_marker resp.length resp le_rfl p hp)

theorem mem_dropLeadEmpty {p : List Char} {ls : List (List Char)}
    (h : p ∈ dropLeadEmpty ls) : p ∈ ls := by
  cases ls with
  | nil => simp [dropLeadEmpty] at h
  | cons q qs =>
    simp only [dropLeadEmpty] at h
    split at h
    · exact List.mem_cons_of_mem q h
    · exact h

/-- The merge branch of the single-query case is dead code: `re.split` has
removed every marker, so `re.search` on the pieces never finds one and the
`has_invalid_index` flag is never set, for any response text. -/
theorem hasHighMarker_pieces_false (resp : List Char) :
    hasHighMarker (dropLeadEmpty ((splitMarkers resp).map pyStrip)).tail = false := by
  rw [hasHighMarker, List.any_eq_false]
  intro p hp
  have hp1 : p ∈ dropLeadEmpty ((splitMarkers resp).map pyStrip) := List.mem_of_mem_tail hp
  have hp2 : p ∈ (splitMarkers resp).map pyStrip := mem_dropLeadEmpty hp1
  obtain ⟨q, hq, rfl⟩ := List.mem_map.mp hp2
  simp [searchMarker_piece_none hq]

theorem scanLines_append (n : ℕ) (xs ys : List (List Char)) :
    ∀ found, scanLines n (xs ++ ys) found =
      match scanLines n xs found with
      | none => none
      | some f => scanLines n ys f := by
  induction xs with
  | nil => intro found; simp [scanLines]
  | cons l ls ih =>
    intro found
    rw [List.cons_append]
    simp only [scanLines]
    by_cases h0 : pyStrip l = []
    · simp only [if_pos h0]
      exact ih found
    · simp only [if_neg h0]
      cases hm : matchMarkerFrom (pyStrip l) with
      | some pr =>
        simp only []
        by_cases hrange : 1 ≤ pr.1 ∧ pr.1 ≤ n
        · simp only [if_pos hrange]
          by_cases hmem : pr.1 ∈ found
          · simp [hmem]
          · simp only [if_neg hmem]
            exact ih _
        · simp [hrange]
      | none => exact ih found

theorem scanLines_mono {n : ℕ} : ∀ (ls : List (List Char)) (found f : Finset ℕ),
    scanLines n ls found = some f → found ⊆ f := by
  intro ls
  induction ls with
  | nil =>
    intro found f h
    simp only [scanLines] at h
    injection h with h
    exact h ▸ Finset.Subset.refl _
  | cons l ls ih =>
    intro found f h
    simp only [scanLines] at h
    by_cases h0 : pyStrip l = []
    · rw [if_pos h0] at h
      exact ih found f h
    · rw [if_neg h0] at h
      cases hm : matchMarkerFrom (pyStrip l) with
      | some pr =>
        rw [hm] at h
        simp only [] at h
        by_cases hrange : 1 ≤ pr.1 ∧ pr.1 ≤ n
        · rw [if_pos hrange] at h
          by_cases hmem : pr.1 ∈ found
          · rw [if_pos hmem] at h
            exact absurd h (by simp)
          · rw [if_neg hmem] at h
            exact (Finset.subset_insert _ _).trans (ih _ f h)
        · rw [if_neg hrange] at h
          exact absurd h (by simp)
      | none =>
        rw [hm] at h
        exact ih found f h

theorem scanLines_dup_none {n i : ℕ} {a b c : List (List Char)} {l1 l2 r1 r2 : List Char}
    (h1 : matchMarkerFrom (pyStrip l1) = some (i, r1))
    (h2 : matchMarkerFrom (pyStrip l2) = some (i, r2)) :
    scanLines n (a ++ l1 :: (b ++ l2 :: c)) ∅ = none := by
  rw [scanLines_append]
  cases hsa : scanLines n a ∅ with
  | none => rfl
  | some f1 =>
    show scanLines n (l1 :: (b ++ l2 :: c)) f1 = none
    simp only [scanLines]
    have hne1 : pyStrip l1 ≠ [] := by
      obtain ⟨ds, -, -, -, hl⟩ := matchMarkerFrom_sound h1
      simp [hl]
    rw [if_neg hne1, h1]
    simp only []
    by_cases hrange : 1 ≤ i ∧ i ≤ n
    · rw [if_pos hrange]
      by_cases hmem : i ∈ f1
      · rw [if_pos hmem]
      · rw [if_neg hmem]
        rw [scanLines_append]
        cases hsb : scanLines n b (insert i f1) with
        | none => rfl
        | some f2 =>
          have hif2 : i ∈ f2 := scanLines_mono _ _ _ hsb (Finset.mem_insert_self i f1)
          show scanLines n (l2 :: c) f2 = none
          simp only [scanLines]
          have hne2 : pyStrip l2 ≠ [] := by
            obtain ⟨ds, -, -, -, hl⟩ := matchMarkerFrom_sound h2
            simp [hl]
          rw [if_neg hne2, h2]
          simp only []
          rw [if_pos hrange, if_pos hif2]
    · rw [if_neg hrange]

theorem strictCheck_false_of_scan_none {n : ℕ} {resp : List Char}
    (h : scanLines n (pySplitChar '\n' (pyStrip resp)) ∅ = none) :
    strictCheck n resp = false := by
  simp only [strictCheck]
  split
  · rfl
  · rw [h]

/-- Claim C5: for every batch of size at least one and every response text
in which some marker index labels two distinct lines (`l1` and `l2` below,
at distinct positions of the line list), the validation of that attempt
fails — `validateResponse` rejects the response regardless of the rest of
its content (the duplicate is caught by the strict scan when the index is in
range, and the range check catches it otherwise; the single-query merge
branch cannot preempt the scan because it is dead code). -/
theorem validate_duplicate_marker (queries : List (List Char)) (resp : List Char)
    (i : ℕ) (a b c : List (List Char)) (l1 l2 r1 r2 : List Char)
    (hq : queries ≠ [])
    (hl : pySplitChar '\n' (pyStrip resp) = a ++ l1 :: (b ++ l2 :: c))
    (h1 : matchMarkerFrom (pyStrip l1) = some (i, r1))
    (h2 : matchMarkerFrom (pyStrip l2) = some (i, r2)) :
    validateResponse queries resp = none := by
  clear hq
  have hstrict : strictCheck queries.length resp = false := by
    apply strictCheck_false_of_scan_none
    rw [hl]
    exact scanLines_dup_none h1 h2
  have hmerge := hasHighMarker_pieces_false resp
  simp only [validateResponse]
  rw [hmerge, hstrict]
  simp

/-- Witness for C5: a concrete one-query batch and a response with two
`<|1|>` lines is rejected. -/
theorem validate_duplicate_marker_witness :
    validateResponse [s2l "x"] (s2l "<|1|>A\n<|1|>B") = none := by
  apply validate_duplicate_marker [s2l "x"] (s2l "<|1|>A\n<|1|>B") 1 [] [] []
      (s2l "<|1|>A") (s2l "<|1|>B") (s2l "A") (s2l "B")
  · decide
  · decide
  · decide
  · decide

/-- Claim C6 (evaluation at the failing input): for the single-query batch
`["q"]` and the response `"<|1|>A\n<|2|>B"` — one answer fragmented over two
labelled lines, the very case the merge branch is written for — the code
rejects the attempt instead of merging: `re.split` has already consumed the
markers, so the scan of `new_translations[1:]` finds no marker index
(second conjunct), the merge flag stays false, and the strict check then
fails on the out-of-range index 2 (first conjunct).  The merged text the
spec describes would have been `"A\nB"` (third conjunct). -/
theorem validate_single_query_merge_dead :
    validateResponse [s2l "q"] (s2l "<|1|>A\n<|2|>B") = none ∧
    hasHighMarker (dropLeadEmpty ((splitMarkers (s2l "<|1|>A\n<|2|>B")).map pyStrip)).tail
      = false ∧
    pyStrip (removeMarkers (s2l "<|1|>A\n<|2|>B")) = s2l "A\nB" := by
  refine ⟨?_, ?_, ?_⟩ <;> decide

/-! ## Stripping and line lemmas for well-formed responses -/

theorem not_space_head {c : Char} {cs : List Char}
    (h : (c :: cs).dropWhile isPySpace = c :: cs) : isPySpace c = false := by
  by_contra hc
  rw [Bool.not_eq_false] at hc
  rw [List.dropWhile_cons_of_pos hc] at h
  have hle := (List.dropWhile_suffix (l := cs) isPySpace).length_le
  rw [h] at hle
  simp at hle

theorem pyStrip_eq_self {t : List Char} (h1 : t.dropWhile isPySpace = t)
    (h2 : t.reverse.dropWhile isPySpace = t.reverse) : pyStrip t = t := by
  simp [pyStrip, h1, h2]

theorem pyStrip_append_newline {t : List Char} (hne : t ≠ [])
    (h1 : t.dropWhile isPySpace = t) (h2 : t.reverse.dropWhile isPySpace = t.reverse) :
    pyStrip (t ++ ['\n']) = t := by
  obtain ⟨c, cs, rfl⟩ := List.exists_cons_of_ne_nil hne
  have hc : isPySpace c = false := not_space_head h1
  rw [pyStrip]
  rw [show (c :: cs) ++ ['\n'] = c :: (cs ++ ['\n']) by simp]
  rw [List.dropWhile_cons_of_neg (by simp [hc])]
  rw [show (c :: (cs ++ ['\n'])).reverse = '\n' :: (c :: cs).reverse by simp]
  rw [List.dropWhile_cons_of_pos (by decide), h2]
  simp

theorem pyStrip_eq_self_of_ends {l : List Char} {c d : Char} {cs ds : List Char}
    (h1 : l = c :: cs) (h2 : l.reverse = d :: ds)
    (hc : isPySpace c = false) (hd : isPySpace d = false) : pyStrip l = l := by
  rw [pyStrip, h1, List.dropWhile_cons_of_neg (by simp [hc]), ← h1, h2,
    List.dropWhile_cons_of_neg (by simp [hd]), ← h2, List.reverse_reverse]

/-- Unpacked form of `segOk`. -/
theorem segOk_spec {t : List Char} (h : segOk t = true) :
    t ≠ [] ∧ t.dropWhile isPySpace = t ∧ t.reverse.dropWhile isPySpace = t.reverse ∧
    ('\n' ∉ t) ∧ ('<' ∉ t) ∧ (∀ c ∈ t, isSuspicious c = false) ∧ t.all isPunct = false := by
  simp only [segOk, Bool.and_eq_true, decide_eq_true_eq, List.all_eq_true,
    Bool.not_eq_true', Bool.not_eq_true] at h
  obtain ⟨⟨⟨⟨⟨⟨a1, a2⟩, a3⟩, a4⟩, a5⟩, a6⟩, a7⟩ := h
  exact ⟨a1, a2, a3, a4, a5, a6, a7⟩

/-! ## Decimal rendering lemmas -/

theorem natCharsGo_congr : ∀ (f1 f2 n : ℕ), n < f1 → n < f2 →
    natCharsGo f1 n = natCharsGo f2 n := by
  intro f1
  induction f1 with
  | zero => intro f2 n h1; omega
  | succ f ih =>
    intro f2 n h1 h2
    cases f2 with
    | zero => omega
    | succ f2' =>
      simp only [natCharsGo]
      by_cases h10 : n < 10
      · simp [h10]
      · have hdiv : n / 10 < n := Nat.div_lt_self (by omega) (by omega)
        simp only [if_neg h10]
        rw [ih f2' (n / 10) (by omega) (by omega)]

theorem natChars_def (n : ℕ) : natChars n =
    if n < 10 then [digitChar10 n] else natChars (n / 10) ++ [digitChar10 (n % 10)] := by
  rw [natChars]
  rw [show n + 1 = n + 1 by rfl]
  simp only [natCharsGo]
  by_cases h10 : n < 10
  · simp [h10]
  · have hdiv : n / 10 < n := Nat.div_lt_self (by omega) (by omega)
    simp only [if_neg h10]
    rw [natCharsGo_congr n (n / 10 + 1) (n / 10) (by omega) (by omega)]
    rfl

theorem isDig_digitChar10 {k : ℕ} (h : k < 10) : isDig (digitChar10 k) = true := by
  interval_cases k <;> decide

theorem charVal_digitChar10 {k : ℕ} (h : k < 10) : charVal (digitChar10 k) = k := by
  interval_cases k <;> decide

theorem natChars_ne_nil (n : ℕ) : natChars n ≠ [] := by
  rw [natChars_def]
  split <;> simp

theorem natChars_all_dig : ∀ n, ∀ c ∈ natChars n, isDig c = true := by
  intro n
  induction n using Nat.strong_induction_on with
  | _ n ih =>
    intro c hc
    rw [natChars_def] at hc
    by_cases h10 : n < 10
    · rw [if_pos h10] at hc
      simp only [List.mem_singleton] at hc
      exact hc ▸ isDig_digitChar10 h10
    · rw [if_neg h10] at hc
      rcases List.mem_append.mp hc with h | h
      · exact ih (n / 10) (Nat.div_lt_self (by omega) (by omega)) c h
      · simp only [List.mem_singleton] at h
        exact h ▸ isDig_digitChar10 (Nat.mod_lt n (by omega))

theorem digitsVal_natChars : ∀ n, digitsVal (natChars n) = n := by
  intro n
  induction n using Nat.strong_induction_on with
  | _ n ih =>
    rw [natChars_def]
    by_cases h10 : n < 10
    · rw [if_pos h10]
      simp [digitsVal, charVal_digitChar10 h10]
    · rw [if_neg h10]
      have : digitsVal (natChars (n / 10) ++ [digitChar10 (n % 10)]) =
          10 * digitsVal (natChars (n / 10)) + charVal (digitChar10 (n % 10)) := by
        simp [digitsVal, List.foldl_append]
      rw [this, ih (n / 10) (Nat.div_lt_self (by omega) (by omega)),
        charVal_digitChar10 (Nat.mod_lt n (by omega))]
      omega

theorem matchMarkerFrom_markerChars (i : ℕ) (t : List Char) :
    matchMarkerFrom (markerChars i ++ t) = some (i, t) := by
  have hasc : markerChars i ++ t = '<' :: '|' :: (natChars i ++ '|' :: '>' :: t) := by
    simp [markerChars]
  rw [hasc, matchMarkerFrom_complete t (natChars_ne_nil i) (natChars_all_dig i),
    digitsVal_natChars]

/-! ## Splitting a well-formed response -/

theorem pySplitChar_no_sep {sep : Char} {l : List Char} (h : sep ∉ l) :
    pySplitChar sep l = [l] := by
  induction l with
  | nil => rfl
  | cons c cs ih =>
    have hc : ¬ c = sep := fun he => h (he ▸ List.mem_cons_self c cs)
    simp only [pySplitChar, if_neg hc]
    rw [ih fun hm => h (List.mem_cons_of_mem c hm)]
    rfl

theorem pySplitChar_append_cons {sep : Char} {l : List Char} (h : sep ∉ l) (r : List Char) :
    pySplitChar sep (l ++ sep :: r) = l :: pySplitChar sep r := by
  induction l with
  | nil => simp [pySplitChar]
  | cons c cs ih =>
    have hc : ¬ c = sep := fun he => h (he ▸ List.mem_cons_self c cs)
    rw [List.cons_append]
    simp only [pySplitChar, if_neg hc]
    rw [ih fun hm => h (List.mem_cons_of_mem c hm)]
    rfl

theorem pySplit_joinLines : ∀ ls : List (List Char), ls ≠ [] →
    (∀ l ∈ ls, ('\n' : Char) ∉ l) → pySplitChar '\n' (joinLines ls) = ls := by
  intro ls
  induction ls with
  | nil => intro h; exact absurd rfl h
  | cons l ls ih =>
    intro _ hno
    cases ls with
    | nil =>
      rw [show joinLines [l] = l from rfl]
      rw [pySplitChar_no_sep (hno l (List.mem_cons_self l _))]
    | cons l' ls' =>
      rw [show joinLines (l :: l' :: ls') = l ++ '\n' :: joinLines (l' :: ls') from rfl]
      rw [pySplitChar_append_cons (hno l (List.mem_cons_self l _))]
      rw [ih (by simp) fun x hx => hno x (List.mem_cons_of_mem l hx)]

theorem mem_markerChars {i : ℕ} {c : Char} (h : c ∈ markerChars i) :
    c = '<' ∨ c = '|' ∨ c = '>' ∨ c ∈ natChars i := by
  simp only [markerChars, List.mem_cons, List.mem_append, List.not_mem_nil, or_false] at h
  tauto

theorem dig_not_newline {c : Char} (h : isDig c = true) : c ≠ '\n' := by
  intro he
  subst he
  simp [isDig] at h

theorem dig_not_lt {c : Char} (h : isDig c = true) : c ≠ '<' := by
  intro he
  subst he
  simp [isDig] at h

theorem newline_not_mem_markerChars (i : ℕ) : ('\n' : Char) ∉ markerChars i := by
  intro h
  rcases mem_markerChars h with h | h | h | h
  · exact absurd h (by decide)
  · exact absurd h (by decide)
  · exact absurd h (by decide)
  · exact dig_not_newline (natChars_all_dig i _ h) rfl

theorem newline_not_mem_lineOf {p : ℕ × List Char} (hseg : segOk p.2 = true) :
    ('\n' : Char) ∉ lineOf p := by
  intro h
  rcases List.mem_append.mp h with h | h
  · exact newline_not_mem_markerChars p.1 h
  · exact (segOk_spec hseg).2.2.2.1 h

theorem mem_mkResponse : ∀ (items : List (ℕ × List Char)), ∀ c ∈ mkResponse items,
    c = '\n' ∨ ∃ p ∈ items, c ∈ lineOf p := by
  intro items
  induction items with
  | nil => intro c hc; simp [mkResponse, joinLines] at hc
  | cons p items ih =>
    intro c hc
    cases items with
    | nil =>
      right
      exact ⟨p, List.mem_cons_self p _, hc⟩
    | cons p' items' =>
      rw [show mkResponse (p :: p' :: items') = lineOf p ++ '\n' :: mkResponse (p' :: items')
        from rfl] at hc
      rcases List.mem_append.mp hc with h | h
      · exact Or.inr ⟨p, List.mem_cons_self p _, h⟩
      · rcases List.mem_cons.mp h with h | h
        · exact Or.inl h
        · rcases ih c h with h | ⟨q, hq, hcq⟩
          · exact Or.inl h
          · exact Or.inr ⟨q, List.mem_cons_of_mem p hq, hcq⟩

theorem splitMarkers_mkResponse : ∀ items : List (ℕ × List Char), items ≠ [] →
    (∀ p ∈ items, ('<' : Char) ∉ p.2) →
    splitMarkers (mkResponse items) = [] :: segParts items := by
  intro items
  induction items with
  | nil => intro h; exact absurd rfl h
  | cons p items ih =>
    intro _ hno
    have hno2 : ∀ c ∈ p.2, c ≠ '<' := fun c hc he =>
      hno p (List.mem_cons_self p _) (he ▸ hc)
    cases items with
    | nil =>
      have hm : matchMarkerFrom (mkResponse [p]) = some (p.1, p.2) := by
        rw [show mkResponse [p] = markerChars p.1 ++ p.2 from rfl]
        exact matchMarkerFrom_markerChars p.1 p.2
      rw [splitMarkers_marker hm]
      have h0 := splitMarkers_append_no_lt hno2 []
      rw [List.append_nil] at h0
      rw [h0]
      simp [splitMarkers_nil, segParts]
    | cons p' items' =>
      have hstep : mkResponse (p :: p' :: items') =
          markerChars p.1 ++ (p.2 ++ '\n' :: mkResponse (p' :: items')) := by
        rw [show mkResponse (p :: p' :: items') = lineOf p ++ '\n' :: mkResponse (p' :: items')
          from rfl, lineOf]
        simp
      have hm : matchMarkerFrom (mkResponse (p :: p' :: items')) =
          some (p.1, p.2 ++ '\n' :: mkResponse (p' :: items')) := by
        rw [hstep]
        exact matchMarkerFrom_markerChars _ _
      rw [splitMarkers_marker hm]
      have hsn : splitMarkers ('\n' :: mkResponse (p' :: items')) =
          ['\n'] :: segParts (p' :: items') := by
        rw [splitMarkers_cons, matchMarkerFrom_not_lt _ (by decide)]
        rw [ih (by simp) fun x hx => hno x (List.mem_cons_of_mem p hx)]
        rfl
      rw [splitMarkers_append_no_lt hno2 ('\n' :: mkResponse (p' :: items')), hsn]
      simp [segParts]

theorem pyStrip_segParts : ∀ items : List (ℕ × List Char),
    (∀ p ∈ items, segOk p.2 = true) →
    (segParts items).map pyStrip = items.map Prod.snd := by
  intro items
  induction items with
  | nil => intro _; rfl
  | cons p items ih =>
    intro hseg
    obtain ⟨hne, h1, h2, -, -, -, -⟩ := segOk_spec (hseg p (List.mem_cons_self p _))
    cases items with
    | nil =>
      simp only [segParts, List.map_cons, List.map_nil]
      rw [pyStrip_eq_self h1 h2]
    | cons p' items' =>
      rw [show segParts (p :: p' :: items') = (p.2 ++ ['\n']) :: segParts (p' :: items')
        from rfl]
      rw [List.map_cons, pyStrip_append_newline hne h1 h2]
      rw [ih fun x hx => hseg x (List.mem_cons_of_mem p hx)]
      rfl

theorem pyStrip_lineOf {p : ℕ × List Char} (h : segOk p.2 = true) :
    pyStrip (lineOf p) = lineOf p := by
  obtain ⟨hne, h1, h2, -, -, -, -⟩ := segOk_spec h
  have hhead : lineOf p = '<' :: ('|' :: (natChars p.1 ++ '|' :: '>' :: []) ++ p.2) := by
    simp [lineOf, markerChars]
  obtain ⟨d, ds, hrev⟩ := List.exists_cons_of_ne_nil
    (show p.2.reverse ≠ [] by simpa using hne)
  rw [hrev] at h2
  have hd : isPySpace d = false := not_space_head h2
  have hrev2 : (lineOf p).reverse = d :: (ds ++ (markerChars p.1).reverse) := by
    rw [lineOf, List.reverse_append, hrev]
    rfl
  exact pyStrip_eq_self_of_ends hhead hrev2 (by decide) hd

theorem mkResponse_head : ∀ (items : List (ℕ × List Char)), items ≠ [] →
    ∃ cs, mkResponse items = '<' :: cs := by
  intro items hne
  cases items with
  | nil => exact absurd rfl hne
  | cons p items =>
    cases items with
    | nil =>
      refine ⟨'|' :: ((natChars p.1 ++ '|' :: '>' :: []) ++ p.2), ?_⟩
      simp [mkResponse, joinLines, lineOf, markerChars]
    | cons p' items' =>
      refine ⟨'|' :: ((natChars p.1 ++ '|' :: '>' :: []) ++
        (p.2 ++ '\n' :: mkResponse (p' :: items'))), ?_⟩
      rw [show mkResponse (p :: p' :: items') = lineOf p ++ '\n' :: mkResponse (p' :: items')
        from rfl]
      simp [lineOf, markerChars]

theorem mkResponse_concat : ∀ (items : List (ℕ × List Char)) (p : ℕ × List Char),
    ∃ A, mkResponse (items ++ [p]) = A ++ p.2 := by
  intro items
  induction items with
  | nil => intro p; exact ⟨markerChars p.1, rfl⟩
  | cons q items ih =>
    intro p
    cases items with
    | nil =>
      refine ⟨lineOf q ++ '\n' :: markerChars p.1, ?_⟩
      rw [show (q :: []) ++ [p] = [q, p] from rfl]
      rw [show mkResponse [q, p] = lineOf q ++ '\n' :: mkResponse [p] from rfl]
      rw [show mkResponse [p] = markerChars p.1 ++ p.2 from rfl]
      simp
    | cons q' items' =>
      obtain ⟨A', hA'⟩ := ih p
      refine ⟨lineOf q ++ '\n' :: A', ?_⟩
      rw [show (q :: q' :: items') ++ [p] = q :: ((q' :: items') ++ [p]) from rfl]
      rw [show mkResponse (q :: ((q' :: items') ++ [p])) =
        lineOf q ++ '\n' :: mkResponse ((q' :: items') ++ [p]) from ?_]
      · rw [hA']
        simp
      · cases items' <;> rfl

theorem pyStrip_mkResponse (items : List (ℕ × List Char)) (hne : items ≠ [])
    (hseg : ∀ p ∈ items, segOk p.2 = true) :
    pyStrip (mkResponse items) = mkResponse items := by
  obtain ⟨cs, hcs⟩ := mkResponse_head items hne
  rcases List.eq_nil_or_concat items with h | ⟨items', plast, hconcat⟩
  · exact absurd h hne
  · rw [List.concat_eq_append] at hconcat
    subst hconcat
    obtain ⟨A, hA⟩ := mkResponse_concat items' plast
    have hplast : segOk plast.2 = true := hseg plast (by simp)
    obtain ⟨hpne, hp1, hp2, -, -, -, -⟩ := segOk_spec hplast
    obtain ⟨d, ds, hrev⟩ := List.exists_cons_of_ne_nil
      (show plast.2.reverse ≠ [] by simpa using hpne)
    rw [hrev] at hp2
    have hd : isPySpace d = false := not_space_head hp2
    have hrev2 : (mkResponse (items' ++ [plast])).reverse = d :: (ds ++ A.reverse) := by
      rw [hA, List.reverse_append, hrev]
      rfl
    exact pyStrip_eq_self_of_ends hcs hrev2 (by decide) hd

theorem scanLines_wellformed {n : ℕ} : ∀ (items : List (ℕ × List Char)) (found : Finset ℕ),
    (∀ p ∈ items, segOk p.2 = true) →
    (items.map Prod.fst).Nodup →
    (∀ p ∈ items, 1 ≤ p.1 ∧ p.1 ≤ n) →
    (∀ p ∈ items, p.1 ∉ found) →
    scanLines n (items.map lineOf) found =
      some (found ∪ (items.map Prod.fst).toFinset) := by
  intro items
  induction items with
  | nil => intro found _ _ _ _; simp [scanLines]
  | cons p items ih =>
    intro found hseg hnd hrange hdisj
    simp only [List.map_cons, scanLines]
    rw [pyStrip_lineOf (hseg p (List.mem_cons_self p _))]
    have hlne : ¬ lineOf p = [] := by simp [lineOf, markerChars]
    rw [if_neg hlne]
    rw [show matchMarkerFrom (lineOf p) = some (p.1, p.2) from
      matchMarkerFrom_markerChars _ _]
    simp only []
    rw [if_pos (hrange p (List.mem_cons_self p _))]
    rw [if_neg (hdisj p (List.mem_cons_self p _))]
    rw [List.map_cons] at hnd
    have hnd' := List.nodup_cons.mp hnd
    rw [ih (insert p.1 found)
      (fun x hx => hseg x (List.mem_cons_of_mem p hx))
      hnd'.2
      (fun x hx => hrange x (List.mem_cons_of_mem p hx))
      (fun x hx => by
        rw [Finset.mem_insert]
        push_neg
        refine ⟨fun he => hnd'.1 ?_, hdisj x (List.mem_cons_of_mem p hx)⟩
        rw [← he]
        exact List.mem_map.mpr ⟨x, hx, rfl⟩)]
    congr 1
    ext y
    simp only [Finset.mem_union, Finset.mem_insert, List.map_cons, List.toFinset_cons]
    tauto

theorem range'_toFinset_Icc (n : ℕ) : (List.range' 1 n).toFinset = Finset.Icc 1 n := by
  ext x
  simp only [List.mem_toFinset, List.mem_range'_1, Finset.mem_Icc]
  omega

/-- Claim C3 (amended): for every batch of size `N ≥ 1` and every response
built of one marker-prefixed line per segment whose labels are exactly
`1..N` each exactly once — in any order — and whose segment texts are well
formed (`segOk`), validation succeeds, and position `k` of the returned list
holds the `k`-th segment in the order the segments appear in the response
text.  The original claim said position `i` holds the segment labeled
`<|i|>`; that is true only when the labels appear in increasing order — the
code keeps text order and only checks the label set
(see `validate_order_counterexample`). -/
theorem validate_wellformed (queries : List (List Char)) (items : List (ℕ × List Char))
    (hne : items ≠ [])
    (hlen : items.length = queries.length)
    (hperm : (items.map Prod.fst).Perm (List.range' 1 queries.length))
    (hseg : ∀ p ∈ items, segOk p.2 = true) :
    validateResponse queries (mkResponse items) = some (items.map Prod.snd) := by
  have hnolt : ∀ p ∈ items, ('<' : Char) ∉ p.2 := fun p hp =>
    (segOk_spec (hseg p hp)).2.2.2.2.1
  have hsp : (splitMarkers (mkResponse items)).map pyStrip = [] :: items.map Prod.snd := by
    rw [splitMarkers_mkResponse items hne hnolt, List.map_cons, pyStrip_segParts items hseg]
    rfl
  have hdle1 : dropLeadEmpty ([] :: items.map Prod.snd) = items.map Prod.snd := by
    simp [dropLeadEmpty]
  obtain ⟨p0, items0, hitems⟩ := List.exists_cons_of_ne_nil hne
  have hdle2 : dropLeadEmpty (items.map Prod.snd) = items.map Prod.snd := by
    rw [hitems]
    simp only [List.map_cons, dropLeadEmpty]
    rw [if_neg (segOk_spec (hseg p0 (hitems ▸ List.mem_cons_self p0 items0))).1]
  have hlen2 : (items.map Prod.snd).length = queries.length := by simp [hlen]
  have hmcfalse : (decide (queries.length = 1) &&
      decide (1 < (items.map Prod.snd).length)) = false := by
    by_cases h1 : queries.length = 1
    · have hll : (items.map Prod.snd).length = 1 := by rw [hlen2, h1]
      simp [hll]
    · simp [h1]
  have hstrict : strictCheck queries.length (mkResponse items) = true := by
    simp only [strictCheck]
    have hlines : pySplitChar '\n' (pyStrip (mkResponse items)) = items.map lineOf := by
      rw [pyStrip_mkResponse items hne hseg]
      refine pySplit_joinLines (items.map lineOf) (by simp [hne]) ?_
      intro l hl
      obtain ⟨p, hp, rfl⟩ := List.mem_map.mp hl
      exact newline_not_mem_lineOf (hseg p hp)
    rw [hlines]
    rw [if_neg (by simp [hne] : ¬ (items.map lineOf = [] ∧ 0 < queries.length))]
    have hnd : (items.map Prod.fst).Nodup :=
      hperm.nodup_iff.mpr (List.nodup_range' 1 queries.length 1 (by norm_num))
    have hrange : ∀ p ∈ items, 1 ≤ p.1 ∧ p.1 ≤ queries.length := by
      intro p hp
      have hm : p.1 ∈ List.range' 1 queries.length :=
        hperm.mem_iff.mp (List.mem_map.mpr ⟨p, hp, rfl⟩)
      rw [List.mem_range'_1] at hm
      omega
    rw [scanLines_wellformed items ∅ hseg hnd hrange (by simp)]
    have hfound : (∅ ∪ (items.map Prod.fst).toFinset : Finset ℕ) =
        Finset.Icc 1 queries.length := by
      rw [Finset.empty_union, List.toFinset_eq_of_perm _ _ hperm, range'_toFinset_Icc]
    rw [hfound]
    simp [Nat.card_Icc]
  have hsusp : (mkResponse items).any isSuspicious = false := by
    rw [List.any_eq_false]
    intro c hc
    simp only [Bool.not_eq_true]
    rcases mem_mkResponse items c hc with rfl | ⟨p, hp, hcl⟩
    · decide
    · rcases List.mem_append.mp hcl with h | h
      · rcases mem_markerChars h with rfl | rfl | rfl | h
        · decide
        · decide
        · decide
        · have hd := natChars_all_dig p.1 c h
          have hle : c.toNat ≤ 57 := by
            simp only [isDig, Bool.decide_and, Bool.and_eq_true, decide_eq_true_eq] at hd
            exact hd.2
          have e1 : ¬ (c.toNat = 0xB39) := by omega
          have e2 : ¬ (c.toNat = 0xB3F) := by omega
          have e3 : ¬ (c.toNat = 0xD39) := by omega
          simp [isSuspicious, e1, e2, e3]
      · exact (segOk_spec (hseg p hp)).2.2.2.2.2.1 c h
  have hempty : ((queries.zip (items.map Prod.snd)).any fun pr =>
      decide (pyStrip pr.1 ≠ []) && decide (pr.2 = [])) = false := by
    rw [List.any_eq_false]
    intro pr hpr
    simp only [Bool.not_eq_true]
    have h2 := (List.of_mem_zip hpr).2
    obtain ⟨p, hp, he⟩ := List.mem_map.mp h2
    have hne2 : pr.2 ≠ [] := he ▸ (segOk_spec (hseg p hp)).1
    simp [hne2]
  have hpunct : ((queries.zip (items.map Prod.snd)).any fun pr =>
      pr.2.all isPunct && !(pr.1.all isPunct)) = false := by
    rw [List.any_eq_false]
    intro pr hpr
    simp only [Bool.not_eq_true]
    have h2 := (List.of_mem_zip hpr).2
    obtain ⟨p, hp, he⟩ := List.mem_map.mp h2
    have hpf : pr.2.all isPunct = false := he ▸ (segOk_spec (hseg p hp)).2.2.2.2.2.2
    simp [hpf]
  simp only [validateResponse]
  rw [hsp, hdle1, hmcfalse, hstrict, hsusp]
  simp [hdle2, hempty, hpunct, hlen2]
  intro x hx
  exfalso
  have h2 := (List.of_mem_zip hx).2
  obtain ⟨p, hp, he⟩ := List.mem_map.mp h2
  exact (segOk_spec (hseg p hp)).1 he

/-- Counterexample to C3 as stated: for the two-query batch and the
well-formed response `"<|2|>B\n<|1|>A"` (markers 1 and 2 each exactly once,
out of order), validation succeeds but returns the segments in text order:
position 1 receives `"B"`, while the segment labeled `<|1|>` is `"A"` —
the code does not reorder segments to match the input positions. -/
theorem validate_order_counterexample :
    validateResponse [s2l "x", s2l "y"] (s2l "<|2|>B\n<|1|>A") = some [s2l "B", s2l "A"] ∧
    segmentsLabeled 1 (s2l "<|2|>B\n<|1|>A") = [s2l "A"] ∧
    s2l "B" ≠ s2l "A" := by
  refine ⟨?_, ?_, ?_⟩ <;> decide

/-- Witness for the amended C3 at a concrete out-of-order response. -/
theorem validate_wellformed_witness :
    (([(2, s2l "B"), (1, s2l "A")] : List (ℕ × List Char)).map Prod.fst).Perm
      (List.range' 1 ([s2l "x", s2l "y"] : List (List Char)).length) ∧
    validateResponse [s2l "x", s2l "y"] (mkResponse [(2, s2l "B"), (1, s2l "A")]) =
      some [s2l "B", s2l "A"] :=
  ⟨by decide, validate_wellformed [s2l "x", s2l "y"] [(2, s2l "B"), (1, s2l "A")]
    (by decide) (by decide) (by decide) (by decide)⟩

/-! ## Fallback acceptance: claim C7 -/

/-- Claim C7 (amended): a fallback attempt is accepted only when the parsed
piece count equals the batch size AND at least one piece is non-empty and
differs from its stripped source query; the accepted result replaces every
empty piece by its source query at the same position, so a returned position
is blank only when its source query is itself blank (see
`fallback_blank_counterexample` for why "no returned position is blank"
does not hold as stated). -/
theorem fallbackAttempt_accept {queries : List (List Char)} {resp : List Char}
    {res : List (List Char)}
    (h : fallbackAttempt queries resp = some res) :
    (dropLeadEmpty ((splitMarkers resp).map pyStrip)).length = queries.length ∧
    (∃ pr ∈ (dropLeadEmpty ((splitMarkers resp).map pyStrip)).zip queries,
      pr.1 ≠ [] ∧ pr.1 ≠ pyStrip pr.2) ∧
    res = ((dropLeadEmpty ((splitMarkers resp).map pyStrip)).zip queries).map
      (fun pr => if pr.1 ≠ [] then pr.1 else pr.2) ∧
    (∀ pr ∈ (dropLeadEmpty ((splitMarkers resp).map pyStrip)).zip queries,
      (if pr.1 ≠ [] then pr.1 else pr.2) = [] → pr.2 = []) := by
  simp only [fallbackAttempt] at h
  split at h
  case isFalse => exact absurd h (by simp)
  case isTrue hlen =>
    split at h
    case isFalse => exact absurd h (by simp)
    case isTrue hcnt =>
      injection h with h
      refine ⟨hlen, ?_, h.symm, ?_⟩
      · obtain ⟨pr, hpr, hp⟩ := List.countP_pos_iff.mp hcnt
        exact ⟨pr, hpr, by simpa using hp⟩
      · intro pr _ hblank
        by_cases hp1 : pr.1 = []
        · simpa [hp1] using hblank
        · rw [if_pos hp1] at hblank
          exact absurd hblank hp1

/-- Counterexample to C7 as stated: with a blank source query, an accepted
fallback result does contain a blank position — the empty piece is replaced
by the (blank) source, so the returned first position is empty. -/
theorem fallback_blank_counterexample :
    fallbackAttempt [[], s2l "x"] (s2l "<|1|>\n<|2|>y") = some [[], s2l "y"] ∧
    ([[], s2l "y"] : List (List Char)).head? = some [] := by
  refine ⟨?_, ?_⟩ <;> decide

/-- Witness for the amended C7 at a concrete accepted fallback response. -/
theorem fallbackAttempt_accept_witness :
    fallbackAttempt [s2l "a"] (s2l "<|1|>b") = some [s2l "b"] ∧
    ((dropLeadEmpty ((splitMarkers (s2l "<|1|>b")).map pyStrip)).length =
      ([s2l "a"] : List (List Char)).length ∧
    (∃ pr ∈ (dropLeadEmpty ((splitMarkers (s2l "<|1|>b")).map pyStrip)).zip [s2l "a"],
      pr.1 ≠ [] ∧ pr.1 ≠ pyStrip pr.2) ∧
    [s2l "b"] = ((dropLeadEmpty ((splitMarkers (s2l "<|1|>b")).map pyStrip)).zip
      [s2l "a"]).map (fun pr => if pr.1 ≠ [] then pr.1 else pr.2) ∧
    (∀ pr ∈ (dropLeadEmpty ((splitMarkers (s2l "<|1|>b")).map pyStrip)).zip [s2l "a"],
      (if pr.1 ≠ [] then pr.1 else pr.2) = [] → pr.2 = [])) :=
  ⟨by decide, fallbackAttempt_accept (by decide)⟩

/-! ## Batch controller: claims C2, C4 and C10 -/

theorem ite_none_some {α : Type} {c : Prop} [Decidable c] {x : Option α} {v : α}
    (h : (if c then none else x) = some v) : x = some v := by
  by_cases hc : c
  · rw [if_pos hc] at h
    exact absurd h (by simp)
  · rwa [if_neg hc] at h

theorem ite_none_some_last {α : Type} {c : Prop} [Decidable c] {v w : α}
    (h : (if c then none else some v) = some w) : ¬ c ∧ v = w := by
  by_cases hc : c
  · rw [if_pos hc] at h
    exact absurd h (by simp)
  · rw [if_neg hc] at h
    exact ⟨hc, by injection h⟩

theorem validateResponse_length {queries : List (List Char)} {resp : List Char}
    {ts : List (List Char)} (h : validateResponse queries resp = some ts) :
    ts.length = queries.length := by
  simp only [validateResponse] at h
  have h2 := ite_none_some (ite_none_some (ite_none_some (ite_none_some h)))
  obtain ⟨hc, hv⟩ := ite_none_some_last h2
  rw [← hv]
  exact not_ne_iff.mp hc

theorem fallbackAttempt_length {queries : List (List Char)} {resp : List Char}
    {res : List (List Char)} (h : fallbackAttempt queries resp = some res) :
    res.length = queries.length := by
  obtain ⟨hlen, -, hres, -⟩ := fallbackAttempt_accept h
  simp [hres, List.length_zip, hlen]

theorem tryFallbackGo_some_length {oracle : ℕ → Except Unit (List Char)}
    {queries : List (List Char)} : ∀ (tries k : ℕ) {res : List (List Char)},
    (tryFallbackGo oracle queries tries k).1 = some res → res.length = queries.length := by
  intro tries
  induction tries with
  | zero => intro k res h; simp [tryFallbackGo] at h
  | succ t ih =>
    intro k res h
    simp only [tryFallbackGo] at h
    cases ho : oracle k with
    | ok resp =>
      rw [ho] at h
      simp only [] at h
      cases hf : fallbackAttempt queries resp with
      | some r =>
        rw [hf] at h
        simp only [] at h
        injection h with h
        rw [← h]
        exact fallbackAttempt_length hf
      | none =>
        rw [hf] at h
        simp only [] at h
        exact ih (k + 1) h
    | error e =>
      rw [ho] at h
      simp only [] at h
      exact ih (k + 1) h

theorem tryFallback_some_length {oracle : ℕ → Except Unit (List Char)} {fb : Bool}
    {queries : List (List Char)} {k : ℕ} {res : List (List Char)}
    (h : (tryFallback oracle fb queries k).1 = some res) : res.length = queries.length := by
  simp only [tryFallback] at h
  split at h
  · exact tryFallbackGo_some_length _ _ h
  · simp at h

theorem runAttempts_some_length {oracle : ℕ → Except Unit (List Char)} {cfg : TBCfg}
    {queries : List (List Char)} : ∀ (tries k : ℕ) {ts : List (List Char)},
    (runAttempts oracle cfg queries tries k).1 = some ts → ts.length = queries.length := by
  intro tries
  induction tries with
  | zero => intro k ts h; simp [runAttempts] at h
  | succ t ih =>
    intro k ts h
    simp only [runAttempts] at h
    cases ho : oracle k with
    | ok resp =>
      rw [ho] at h
      simp only [] at h
      cases hv : validateResponse queries resp with
      | some ts' =>
        rw [hv] at h
        simp only [] at h
        injection h with h
        rw [← h]
        exact validateResponse_length hv
      | none =>
        rw [hv] at h
        simp only [] at h
        exact ih (k + 1) h
    | error e =>
      rw [ho] at h
      simp only [] at h
      split at h
      · exact tryFallback_some_length h
      · exact ih (k + 1) h

theorem tryFallback_nofb (oracle : ℕ → Except Unit (List Char))
    (queries : List (List Char)) (k : ℕ) :
    tryFallback oracle false queries k = (none, 0) := by
  simp [tryFallback]

theorem runAttempts_reqs_nofb {oracle : ℕ → Except Unit (List Char)} {cfg : TBCfg}
    {queries : List (List Char)} (hfb : cfg.fallbackOn = false) :
    ∀ (tries k : ℕ), (runAttempts oracle cfg queries tries k).2 ≤ tries := by
  intro tries
  induction tries with
  | zero => intro k; simp [runAttempts]
  | succ t ih =>
    intro k
    simp only [runAttempts]
    cases ho : oracle k with
    | ok resp =>
      simp only []
      cases hv : validateResponse queries resp with
      | some ts => simp
      | none =>
        simp only []
        have := ih (k + 1)
        omega
    | error e =>
      simp only []
      by_cases ht : t = 0
      · rw [if_pos ht, hfb, tryFallback_nofb]
        simp
      · rw [if_neg ht]
        simp only []
        have := ih (k + 1)
        omega

theorem translateGo_length {oracle : ℕ → Except Unit (List Char)} {cfg : TBCfg} :
    ∀ (fuel : ℕ) (queries : List (List Char)) (level k : ℕ),
    (translateGo oracle cfg fuel queries level k).results.length = queries.length := by
  intro fuel
  induction fuel with
  | zero =>
    intro queries level k
    simp only [translateGo]
    split
    case isTrue hq => simp [hq]
    case isFalse hq => rfl
  | succ f ih =>
    intro queries level k
    simp only [translateGo]
    split
    case isTrue hq => simp [hq]
    case isFalse hq =>
      cases ha : (runAttempts oracle cfg queries (maxAttemptsOf cfg) k).1 with
      | some ts =>
        simp only []
        exact runAttempts_some_length _ _ ha
      | none =>
        simp only []
        cases hf : (tryFallback oracle cfg.fallbackOn queries (k +
            (runAttempts oracle cfg queries (maxAttemptsOf cfg) k).2)).1 with
        | some res =>
          simp only []
          exact tryFallback_some_length hf
        | none =>
          simp only []
          split
          case isTrue hsplit =>
            simp only [List.length_append, ih]
            rw [List.length_take, List.length_drop]
            omega
          case isFalse => rfl

theorem reqs_bound_arith {M att l r n s : ℕ} (hM : att ≤ M) (hn : 1 < n)
    (hl : l ≤ M * (2 * (n / 2) - 1)) (hr : r ≤ M * (2 * (n - n / 2) - 1))
    (hs : s ≤ att + l + r) : s ≤ M * (2 * n - 1) := by
  set x := 2 * (n / 2) - 1 with hx
  set y := 2 * (n - n / 2) - 1 with hy
  have hxy : x + y + 1 = 2 * n - 1 := by omega
  calc s ≤ att + l + r := hs
    _ ≤ M + M * x + M * y := Nat.add_le_add (Nat.add_le_add hM hl) hr
    _ = M * (x + y + 1) := by ring
    _ = M * (2 * n - 1) := by rw [hxy]

theorem translateGo_reqs_nofb {oracle : ℕ → Except Unit (List Char)} {cfg : TBCfg}
    (hfb : cfg.fallbackOn = false) :
    ∀ (fuel : ℕ) (queries : List (List Char)) (level k : ℕ),
    (translateGo oracle cfg fuel queries level k).reqs ≤
      maxAttemptsOf cfg * (2 * queries.length - 1) := by
  intro fuel
  induction fuel with
  | zero =>
    intro queries level k
    simp only [translateGo]
    split <;> simp
  | succ f ih =>
    intro queries level k
    simp only [translateGo]
    split
    case isTrue hq => simp
    case isFalse hq =>
      have hql : 1 ≤ queries.length := by
        cases queries with
        | nil => exact absurd rfl hq
        | cons q qs => simp
      have hbnd : 1 ≤ 2 * queries.length - 1 := by omega
      have hatt : (runAttempts oracle cfg queries (maxAttemptsOf cfg) k).2 ≤
          maxAttemptsOf cfg := runAttempts_reqs_nofb hfb (maxAttemptsOf cfg) k
      have hMbig : maxAttemptsOf cfg ≤ maxAttemptsOf cfg * (2 * queries.length - 1) := by
        calc maxAttemptsOf cfg = maxAttemptsOf cfg * 1 := (Nat.mul_one _).symm
          _ ≤ maxAttemptsOf cfg * (2 * queries.length - 1) := Nat.mul_le_mul_left _ hbnd
      rw [hfb, tryFallback_nofb]
      cases ha : (runAttempts oracle cfg queries (maxAttemptsOf cfg) k).1 with
      | some ts =>
        simp only []
        omega
      | none =>
        simp only []
        split
        case isTrue hsplit =>
          dsimp only
          have hta : (queries.take (queries.length / 2)).length = queries.length / 2 := by
            rw [List.length_take]
            exact min_eq_left (Nat.div_le_self _ _)
          have htb : (queries.drop (queries.length / 2)).length =
              queries.length - queries.length / 2 := List.length_drop _ _
          have hL := ih (queries.take (queries.length / 2)) (level + 1)
            (k + (runAttempts oracle cfg queries (maxAttemptsOf cfg) k).2 + 0)
          rw [hta] at hL
          have hR := ih (queries.drop (queries.length / 2)) (level + 1)
            (k + (runAttempts oracle cfg queries (maxAttemptsOf cfg) k).2 + 0 +
              (translateGo oracle cfg f (queries.take (queries.length / 2)) (level + 1)
                (k + (runAttempts oracle cfg queries (maxAttemptsOf cfg) k).2 + 0)).reqs)
          rw [htb] at hR
          exact reqs_bound_arith hatt hsplit.2 hL hR (by omega)
        case isFalse =>
          simp only []
          omega

/-- Claim C2: in the terminal configuration — split level at or beyond the
maximum depth, or a batch of exactly one query — whenever `_translate_batch`
ends in failure (all retries and the fallback exhausted, which is what
`ok = false` means there, since every success path returns `ok = true`), it
returns `success = false` together with a result list holding exactly the
original source query text at every position.  Request-executor exceptions
(the oracle's `Except.error` outcomes) are absorbed inside
`runAttempts`/`tryFallback`; `translateBatch` is a total function into
`TBRes`, so translation failure is never surfaced as an exception. -/
theorem translateBatch_terminal_failure (oracle : ℕ → Except Unit (List Char)) (cfg : TBCfg)
    (queries : List (List Char)) (level k : ℕ)
    (hne : queries ≠ [])
    (hterm : cfg.maxSplit ≤ level ∨ queries.length = 1)
    (hfail : (translateBatch oracle cfg queries level k).ok = false) :
    (translateBatch oracle cfg queries level k).results = queries := by
  obtain ⟨q, qs, rfl⟩ := List.exists_cons_of_ne_nil hne
  simp only [translateBatch, List.length_cons] at hfail ⊢
  simp only [translateGo] at hfail ⊢
  rw [if_neg (by simp : ¬ (q :: qs : List (List Char)) = [])] at hfail ⊢
  cases ha : (runAttempts oracle cfg (q :: qs) (maxAttemptsOf cfg) k).1 with
  | some ts =>
    rw [ha] at hfail
    simp only [] at hfail
    exact absurd hfail (by simp)
  | none =>
    rw [ha] at hfail
    simp only [] at hfail ⊢
    cases hf : (tryFallback oracle cfg.fallbackOn (q :: qs)
        (k + (runAttempts oracle cfg (q :: qs) (maxAttemptsOf cfg) k).2)).1 with
    | some res =>
      rw [hf] at hfail
      simp only [] at hfail
      exact absurd hfail (by simp)
    | none =>
      rw [hf] at hfail
      simp only [] at hfail ⊢
      have hnc : ¬ (level < cfg.maxSplit ∧ 1 < (q :: qs : List (List Char)).length) := by
        rcases hterm with h | h
        · exact fun hc => absurd hc.1 (by omega)
        · intro hc
          rw [List.length_cons] at h
          have := hc.2
          simp only [List.length_cons] at this
          omega
      rw [if_neg hnc]

/-- Witness for C2: an oracle that always raises, no fallback configured, a
single-query batch at split level 0 — the run fails and returns the source. -/
theorem translateBatch_terminal_failure_witness :
    (translateBatch (fun _ => Except.error ()) ⟨2, 3, false⟩ [s2l "a"] 0 0).ok = false ∧
    (translateBatch (fun _ => Except.error ()) ⟨2, 3, false⟩ [s2l "a"] 0 0).results =
      [s2l "a"] :=
  ⟨by decide, translateBatch_terminal_failure (fun _ => Except.error ()) ⟨2, 3, false⟩
    [s2l "a"] 0 0 (by decide) (Or.inr (by decide)) (by decide)⟩

/-- Claim C4: `_translate_batch` terminates for every oracle behaviour (it
is a total function of the oracle), each batch node performs at most
`max(1, retryLimit + 1)` request attempts, splitting occurs only while
`split_level < maxSplitDepth` and the batch size exceeds one, each split
halves the batch into two strictly smaller halves — hence, with no fallback
model configured, the total number of requests issued for a batch of `n`
queries is bounded by `max(1, retryLimit + 1) * (2n - 1)`. -/
theorem translateBatch_reqs_bound (oracle : ℕ → Except Unit (List Char)) (cfg : TBCfg)
    (queries : List (List Char)) (level k : ℕ) (hfb : cfg.fallbackOn = false) :
    (translateBatch oracle cfg queries level k).reqs ≤
      maxAttemptsOf cfg * (2 * queries.length - 1) :=
  translateGo_reqs_nofb hfb _ queries level k

/-- Witness for C4: an always-malformed (always-raising) oracle on a
two-query batch; the bound is `3 * (2*2 - 1) = 9`. -/
theorem translateBatch_reqs_bound_witness :
    (⟨2, 3, false⟩ : TBCfg).fallbackOn = false ∧
    (translateBatch (fun _ => Except.error ()) ⟨2, 3, false⟩ [s2l "a", s2l "b"] 0 0).reqs ≤
      maxAttemptsOf ⟨2, 3, false⟩ *
        (2 * ([s2l "a", s2l "b"] : List (List Char)).length - 1) :=
  ⟨by decide, translateBatch_reqs_bound (fun _ => Except.error ()) ⟨2, 3, false⟩
    [s2l "a", s2l "b"] 0 0 (by decide)⟩

/-- Claim C10: on every return path of `_translate_batch` — validated
success, fallback success, split-and-merge, terminal failure — the result
list has exactly the length of the input batch; and an empty batch returns
`(true, [])` immediately with zero requests issued. -/
theorem translateBatch_length_and_empty (oracle : ℕ → Except Unit (List Char)) (cfg : TBCfg)
    (queries : List (List Char)) (level k : ℕ) :
    (translateBatch oracle cfg queries level k).results.length = queries.length ∧
    (queries = [] → translateBatch oracle cfg queries level k = ⟨true, [], 0⟩) := by
  constructor
  · exact translateGo_length _ queries level k
  · intro h
    subst h
    rfl

/-- Witness for C10 at a concrete two-query batch and the empty batch. -/
theorem translateBatch_length_and_empty_witness :
    (translateBatch (fun _ => Except.error ()) ⟨2, 3, false⟩ [s2l "a", s2l "b"] 0
      0).results.length = ([s2l "a", s2l "b"] : List (List Char)).length ∧
    translateBatch (fun _ => Except.error ()) ⟨2, 3, false⟩ [] 0 0 = ⟨true, [], 0⟩ :=
  ⟨(translateBatch_length_and_empty (fun _ => Except.error ()) ⟨2, 3, false⟩
      [s2l "a", s2l "b"] 0 0).1,
   (translateBatch_length_and_empty (fun _ => Except.error ()) ⟨2, 3, false⟩ [] 0 0).2 rfl⟩

/-! ## Glossary: claims C8 and C9 -/

/-- Claim C9: for every glossary and prompt text, if an entry's source term
(or the term with its spaces removed) occurs verbatim as a substring of the
text, and `extract_relevant_terms` returns a mapping, then the entry is in
that mapping — the exact-containment check is the first step of the entry
loop and admits the entry before any fallible step can run on it. -/
theorem extract_includes_exact_match (entries : List (List Char × List Char))
    (text term tr : List Char) (m : List (List Char × List Char))
    (hmem : (term, tr) ∈ entries)
    (hocc : occursIn term text = true ∨ occursIn (removeSpaces term) text = true)
    (hok : extractRelevantTerms entries text = Except.ok m) :
    (term, tr) ∈ m := by
  simp only [extractRelevantTerms] at hok
  revert hmem hok
  induction entries generalizing m with
  | nil =>
    intro hmem _
    simp at hmem
  | cons e rest ih =>
    intro hmem hok
    simp only [extractGo] at hok
    cases hm : entryMatch text e.1 with
    | error u =>
      rw [hm] at hok
      exact absurd hok (by simp)
    | ok b =>
      rw [hm] at hok
      simp only [] at hok
      cases hrest : extractGo text rest with
      | error u =>
        rw [hrest] at hok
        exact absurd hok (by simp)
      | ok mrest =>
        rw [hrest] at hok
        simp only [] at hok
        injection hok with hok
        rcases List.mem_cons.mp hmem with he | hmemr
        · have he1 : e.1 = term := by rw [← he]
          rw [he1] at hm
          have hcond : (occursIn term text || occursIn (removeSpaces term) text) = true := by
            rcases hocc with h | h <;> simp [h]
          simp only [entryMatch] at hm
          rw [if_pos hcond] at hm
          injection hm with hb
          rw [← hb] at hok
          simp only [if_true] at hok
          rw [← hok, ← he]
          exact List.mem_cons_self _ _
        · have := ih mrest hmemr hrest
          rw [← hok]
          by_cases hbv : b = true
          · rw [hbv]
            simp only [if_true]
            exact List.mem_cons_of_mem e this
          · rw [Bool.not_eq_true] at hbv
            rw [hbv]
            simpa using this

/-- Witness for C9: a one-entry glossary whose term occurs in the prompt. -/
theorem extract_includes_exact_match_witness :
    ((s2l "ab", s2l "X") ∈ ([(s2l "ab", s2l "X")] : List (List Char × List Char))) ∧
    occursIn (s2l "ab") (s2l "zabz") = true ∧
    extractRelevantTerms [(s2l "ab", s2l "X")] (s2l "zabz") =
      Except.ok [(s2l "ab", s2l "X")] ∧
    (s2l "ab", s2l "X") ∈ [(s2l "ab", s2l "X")] :=
  ⟨by decide, by decide, by rfl,
   extract_includes_exact_match [(s2l "ab", s2l "X")] (s2l "zabz") (s2l "ab") (s2l "X")
     [(s2l "ab", s2l "X")] (by decide) (Or.inl (by decide)) (by rfl)⟩

/-- Claim C8 (amended): every entry accepted by the MIT-format loader has a
source pattern that passes the compile check — the loader validates and
skips the rest.  The sakura and galtransl loaders perform no validation
(see `sakura_unvalidated_counterexample`). -/
theorem loadMitDict_compiles : ∀ (lines : List (List Char)) (src entry : List Char),
    (src, entry) ∈ loadMitDict lines → reCompileOk src = true := by
  intro lines
  induction lines with
  | nil =>
    intro src entry h
    simp [loadMitDict] at h
  | cons raw ls ih =>
    intro src entry h
    simp only [loadMitDict] at h
    split at h
    · exact ih _ _ h
    · split at h
      case h_1 a b rest heq =>
        split at h
        case isTrue hcomp =>
          rcases List.mem_cons.mp h with h1 | h1
          · have : src = underscoreToSpace (pyStrip a) := congrArg Prod.fst h1
            rw [this]
            exact hcomp
          · exact ih _ _ h1
        case isFalse => exact ih _ _ h
      case h_2 => exact ih _ _ h

/-- Counterexample to C8 as stated: the one-line glossary file
`"abc(def->TGT"` is detected as the sakura format and loads the entry
`("abc(def", "TGT")` without any validation; its source pattern has an
unbalanced parenthesis so it does not compile, and the matcher's
regular-expression stage raises on it (the earlier matching steps all miss
for the prompt `"xx"`). -/
theorem sakura_unvalidated_counterexample :
    detectType [s2l "abc(def->TGT"] = DicType.sakura ∧
    loadGlossary [s2l "abc(def->TGT"] = [(s2l "abc(def", s2l "TGT")] ∧
    reCompileOk (s2l "abc(def") = false ∧
    extractRelevantTerms [(s2l "abc(def", s2l "TGT")] (s2l "xx") = Except.error () := by
  refine ⟨by decide, by decide, by decide, by rfl⟩

/-- Witness for the amended C8 at a concrete MIT-format file. -/
theorem loadMitDict_compiles_witness :
    (s2l "foo", s2l "bar") ∈ loadMitDict [s2l "foo\tbar"] ∧
    reCompileOk (s2l "foo") = true :=
  ⟨by decide, loadMitDict_compiles [s2l "foo\tbar"] (s2l "foo") (s2l "bar") (by decide)⟩
